import Mathlib

/-!
Verification of the schema-registry/rewrite engine of the aeroapi-go
repository (internal/specfmt/specfmt.go and cmd/specfmt/main.go).

The Go code operates on gopkg.in/yaml.v3 node trees by in-place pointer
mutation.  We embed the node type shallowly as a pure tree (the shape parsed
documents actually have: yaml.v3 produces a tree, and every claim concerns
trees), and each mutating Go function becomes a pure function that returns
the rewritten node together with the updated registry state.  The Go maps
byFingerprint and existingNames are embedded as association lists with
map-assignment semantics (insert shadows, membership-based set insert), which
have exactly the lookup/membership behaviour the code relies on; the code
never iterates over either map.  Verbose printing and the two Options flags
have no effect on the rewrite itself and are omitted from the walk functions
(Options is modelled for FormatFile, where DryRun matters).

yaml.v3 node kinds: DocumentNode = 1, SequenceNode = 2, MappingNode = 4,
ScalarNode = 8, AliasNode = 16.  A yaml.Node is a record of Kind, Tag, Value
and a flat Content list (mappings store k1, v1, k2, v2, ...); we model the
four fields the code reads and writes.
-/

inductive Node where
  | mk (kind : Nat) (tag : String) (value : String) (content : List Node)

def Node.kind : Node → Nat
  | .mk k _ _ _ => k

def Node.tag : Node → String
  | .mk _ t _ _ => t

def Node.value : Node → String
  | .mk _ _ v _ => v

def Node.content : Node → List Node
  | .mk _ _ _ c => c

/-- Rebuild a node with new content, preserving kind, tag and value (this is
what every in-place `n.Content = ...` assignment in the Go code does). -/
def Node.setContent (n : Node) (c : List Node) : Node :=
  .mk n.kind n.tag n.value c

mutual
def Node.beq : Node → Node → Bool
  | .mk k1 t1 v1 c1, .mk k2 t2 v2 c2 =>
    k1 == k2 && t1 == t2 && v1 == v2 && Node.beqList c1 c2
def Node.beqList : List Node → List Node → Bool
  | [], [] => true
  | a :: as, b :: bs => Node.beq a b && Node.beqList as bs
  | _, _ => false
end

mutual
theorem Node.eq_of_beq : ∀ (a b : Node), Node.beq a b = true → a = b
  | .mk k1 t1 v1 c1, .mk k2 t2 v2 c2, h => by
    simp only [Node.beq, Bool.and_eq_true, beq_iff_eq] at h
    obtain ⟨⟨⟨h1, h2⟩, h3⟩, h4⟩ := h
    have h5 := Node.eqList_of_beqList c1 c2 h4
    subst h1; subst h2; subst h3; subst h5; rfl
theorem Node.eqList_of_beqList : ∀ (as bs : List Node), Node.beqList as bs = true → as = bs
  | [], [], _ => rfl
  | a :: as, b :: bs, h => by
    simp only [Node.beqList, Bool.and_eq_true] at h
    have h1 := Node.eq_of_beq a b h.1
    have h2 := Node.eqList_of_beqList as bs h.2
    subst h1; subst h2; rfl
end

mutual
theorem Node.beq_refl : ∀ (a : Node), Node.beq a a = true
  | .mk k t v c => by
    simp only [Node.beq, Bool.and_eq_true, beq_self_eq_true, true_and]
    exact Node.beqList_refl c
theorem Node.beqList_refl : ∀ (as : List Node), Node.beqList as as = true
  | [] => rfl
  | a :: as => by
    simp only [Node.beqList, Bool.and_eq_true]
    exact ⟨Node.beq_refl a, Node.beqList_refl as⟩
end

instance : DecidableEq Node := fun a b =>
  if h : Node.beq a b = true then isTrue (Node.eq_of_beq a b h)
  else isFalse (fun he => h (he ▸ Node.beq_refl a))

/-! ### String helpers

The Go code uses the strings/unicode packages; the inputs in this domain are
ASCII (YAML keys, operation ids, media types), on which the helpers below
agree byte-for-byte with the Go functions they model.  They are written by
structural recursion over character lists so the kernel can evaluate them. -/

/-- strings.ToLower, on ASCII. -/
def lowerChars (cs : List Char) : List Char :=
  cs.map Char.toLower

/-- Split a character list on a single separator character
(strings.Split with a one-character separator, as used with "/" and "_"). -/
def splitChar (sep : Char) : List Char → List (List Char)
  | [] => [[]]
  | c :: cs =>
    let rest := splitChar sep cs
    if c = sep then [] :: rest
    else
      match rest with
      | [] => [[c]]
      | r :: rs => (c :: r) :: rs

/-- Uppercase the first character of a segment, keep the rest as-is
(`runes[0] = unicode.ToUpper(runes[0])` on a non-empty part). -/
def capFirst : List Char → List Char
  | [] => []
  | c :: cs => c.toUpper :: cs

/-- toPascalCase from the source: normalize "-" to "_", split on "_",
skip empty parts, leading-capitalize each part, concatenate. -/
def toPascalCase (s : String) : String :=
  let normalized := s.data.map (fun c => if c = '-' then '_' else c)
  let parts := (splitChar '_' normalized).filter (fun p => p ≠ [])
  String.mk (parts.foldr (fun p acc => capFirst p ++ acc) [])

/-- The ordered verb-prefix list of deriveSchemaName. -/
def verbPrefixList : List String :=
  ["get_", "post_", "put_", "delete_",
   "patch_", "options_", "head_",
   "list_", "create_", "update_", "remove_"]

/-- deriveSchemaName from the source: on a non-empty operationId, strip the
first matching verb prefix (matched case-insensitively against the lowered
id, stripped from the original), then PascalCase the remainder. -/
def deriveSchemaName (operationID : String) : String :=
  if operationID = "" then ""
  else
    let lower := lowerChars operationID.data
    let stripped :=
      match verbPrefixList.find? (fun p => p.data.isPrefixOf lower) with
      | some p => String.mk (operationID.data.drop p.data.length)
      | none => operationID
    if stripped = "" then "" else toPascalCase stripped

/-- Strip the braces of a path-parameter segment: Go checks
HasPrefix "{" and HasSuffix "}" and then takes p[1 : len(p)-1]. -/
def stripBraces (p : List Char) : List Char :=
  if p.head? = some '{' ∧ p.getLast? = some '}' then (p.drop 1).dropLast else p

/-- deriveNameFromPathAndMethod from the source: split the path on "/",
drop empty segments, strip braces, PascalCase each segment, then append the
PascalCased lower-cased method; join with no separator. -/
def deriveNameFromPathAndMethod (path method : String) : String :=
  let parts := (splitChar '/' path.data).filter (fun p => p ≠ [])
  let segs := parts.map (fun p => toPascalCase (String.mk (stripBraces p)))
  String.join segs ++ toPascalCase (String.mk (lowerChars method.data))

/-- deriveResponseSchemaNameHint from the source. -/
def deriveResponseSchemaNameHint (path method operationID status : String) : String :=
  let base0 := deriveSchemaName operationID
  let base1 := if base0 = "" then deriveNameFromPathAndMethod path method else base0
  let base := if base1 = "" then "Response" else base1
  let statusSuffix := if status = "" then "Default" else status
  base ++ toPascalCase statusSuffix ++ "Response"

/-! ### Fingerprints -/

/-- Go %q escaping of one character (strconv.Quote), faithful on ASCII:
quote and backslash are backslash-escaped, the named control escapes are
used, remaining control bytes become a hex escape, printable characters are
kept as-is. -/
def goQuoteChar (c : Char) : String :=
  if c = '"' then String.mk ['\\', '"']
  else if c = '\\' then String.mk ['\\', '\\']
  else if c = '\n' then String.mk ['\\', 'n']
  else if c = '\t' then String.mk ['\\', 't']
  else if c = '\r' then String.mk ['\\', 'r']
  else if c.toNat = 7 then String.mk ['\\', 'a']
  else if c.toNat = 8 then String.mk ['\\', 'b']
  else if c.toNat = 11 then String.mk ['\\', 'v']
  else if c.toNat = 12 then String.mk ['\\', 'f']
  else if c.toNat < 32 ∨ c.toNat = 127 then
    String.mk ['\\', 'x', (Nat.digitChar (c.toNat / 16)), (Nat.digitChar (c.toNat % 16))]
  else String.singleton c

/-- Go %q of a string: surrounding quotes plus per-character escaping. -/
def goQuote (s : String) : String :=
  String.mk ['"'] ++ String.join (s.data.map goQuoteChar) ++ String.mk ['"']

/- writeNodeFingerprint from the source: "K:%d;T:%s;V:%q;" followed, for a
node with children, by a bracketed pipe-terminated child list.  (The Go
function also prints "nil;" for a nil pointer; child pointers in a parsed
tree are never nil, and the tree embedding has no nil.) -/
mutual
def writeNodeFingerprint : Node → String
  | .mk k t v c =>
    "K:" ++ Nat.repr k ++ ";T:" ++ t ++ ";V:" ++ goQuote v ++ ";" ++
    (match c with
     | [] => ""
     | _ => "[" ++ childFingerprints c ++ "]")
def childFingerprints : List Node → String
  | [] => ""
  | c :: cs => writeNodeFingerprint c ++ "|" ++ childFingerprints cs
end

def schemaFingerprint (n : Node) : String :=
  writeNodeFingerprint n

/-! ### YAML node helpers from the source -/

def scalarNode (value : String) : Node :=
  .mk 8 "!!str" value []

/-- getMapValue iterates the flat content list two at a time and returns the
value after the first key whose Value matches. -/
def lookupMapContent (key : String) : List Node → Option Node
  | k :: v :: rest => if k.value = key then some v else lookupMapContent key rest
  | _ => none

def getMapValue (m : Node) (key : String) : Option Node :=
  if m.kind = 4 then lookupMapContent key m.content else none

/-- Replace the value after the first matching key (the functional image of
the in-place mutation of the node that getMapValue returned). -/
def setMapContent (key : String) (newV : Node) : List Node → List Node
  | k :: v :: rest =>
    if k.value = key then k :: newV :: rest else k :: v :: setMapContent key newV rest
  | rest => rest

def setMapValueFirst (m : Node) (key : String) (v : Node) : Node :=
  m.setContent (setMapContent key v m.content)

/-- appendMapEntry appends a key scalar and the value to the content list
(without touching the node kind). -/
def appendMapEntry (m : Node) (key : String) (v : Node) : Node :=
  m.setContent (m.content ++ [scalarNode key, v])

/-- ensureMapValue: coerce the parent to an empty mapping if it is not one
(keeping tag and value, as the Go assignment does), then return the value
under the key, appending a fresh empty mapping node if absent.  Returns the
updated parent together with the value node. -/
def ensureMapValueF (m : Node) (key : String) : Node × Node :=
  let m1 := if m.kind ≠ 4 then Node.mk 4 m.tag m.value [] else m
  match lookupMapContent key m1.content with
  | some v => (m1, v)
  | none =>
    let v := Node.mk 4 "" "" []
    (m1.setContent (m1.content ++ [scalarNode key, v]), v)

def isRefOnlySchema (schema : Node) : Bool :=
  match schema.content with
  | [k, _] => schema.kind == 4 && k.value == "$ref"
  | _ => false

/-- makeRefOnlySchema truncates the content and appends the two reference
scalars; kind, tag and value of the node are untouched. -/
def makeRefOnlySchema (schema : Node) (compositeName : String) : Node :=
  schema.setContent [scalarNode "$ref", scalarNode ("#/components/schemas/" ++ compositeName)]

/-- cloneNode performs a deep copy; in the pure tree embedding a value is
its own deep copy. -/
def cloneNode (n : Node) : Node := n

/-! ### Schema registry -/

/-- schemaRegistry: byFingerprint and existingNames are Go maps used only
for lookup/membership; we store them as lists with map-assignment insert
(most recent assignment shadows) and set insert. -/
structure RState where
  schemas : Node
  byFp : List (String × String)
  names : List String

def lookupFp (l : List (String × String)) (fp : String) : Option String :=
  match l.find? (fun p => p.1 = fp) with
  | some p => some p.2
  | none => none

def insertName (n : String) (l : List String) : List String :=
  if l.contains n then l else n :: l

/-- newSchemaRegistry seeding loop: walk the schemas mapping content in
order, record each name, and register each entry fingerprint (a later entry
with the same fingerprint shadows an earlier one, as Go map assignment
does). -/
def seedRegistry : List Node → List (String × String) × List String →
    List (String × String) × List String
  | nameNode :: schemaNode :: rest, (byFp, names) =>
    let names1 := insertName nameNode.value names
    let fp := schemaFingerprint schemaNode
    let byFp1 := if fp ≠ "" then (fp, nameNode.value) :: byFp else byFp
    seedRegistry rest (byFp1, names1)
  | _, acc => acc

def newSchemaRegistry (schemas : Node) : RState :=
  let seeded := if schemas.kind = 4 then seedRegistry schemas.content ([], []) else ([], [])
  ⟨schemas, seeded.1, seeded.2⟩

/-- Candidate number i of the unique-name loop: the base itself first, then
base2, base3, ... -/
def candName (base : String) (i : Nat) : String :=
  if i = 1 then base else base ++ Nat.repr i

/-- The unbounded Go loop of ensureUniqueName, with enough fuel to reach the
first candidate outside existingNames (candidates are pairwise distinct, so
names.length + 2 attempts always suffice; see uniqueLoop lemmas below). -/
def uniqueLoop (names : List String) (base : String) : Nat → Nat → String
  | 0, i => candName base i
  | fuel + 1, i =>
    let n := candName base i
    if names.contains n then uniqueLoop names base fuel (i + 1) else n

/-- ensureUniqueName from the source: an existing entry under the base name
with a matching fingerprint is reused as-is; otherwise the loop tries base,
base2, base3, ... until a name not in existingNames is found. -/
def ensureUniqueName (st : RState) (base fp : String) : String :=
  match getMapValue st.schemas base with
  | some existing =>
    if schemaFingerprint existing = fp then base
    else uniqueLoop st.names base (st.names.length + 2) 1
  | none => uniqueLoop st.names base (st.names.length + 2) 1

/-- componentizeSchema on a non-nil node (the body after the nil guard). -/
def componentizeSchemaCore (s : Node) (nameHint : String) (st : RState) :
    Node × RState × String × Bool :=
  if s.kind ≠ 4 then (s, st, "", false)
  else if isRefOnlySchema s then (s, st, "", false)
  else
    let fp := schemaFingerprint s
    match lookupFp st.byFp fp with
    | some existingName => (makeRefOnlySchema s existingName, st, existingName, true)
    | none =>
      let candidate := if nameHint = "" then "InlineSchema" else nameHint
      let name := ensureUniqueName st candidate fp
      let cloned := cloneNode s
      let st1 : RState :=
        ⟨appendMapEntry st.schemas name cloned,
         (fp, name) :: st.byFp,
         insertName name st.names⟩
      (makeRefOnlySchema s name, st1, name, true)

/-- componentizeSchema from the source, including the nil guard (a nil
schema pointer is embedded as none). -/
def componentizeSchema (schemaNode : Option Node) (nameHint : String) (st : RState) :
    Option Node × RState × String × Bool :=
  match schemaNode with
  | none => (none, st, "", false)
  | some s =>
    let r := componentizeSchemaCore s nameHint st
    (some r.1, r.2.1, r.2.2.1, r.2.2.2)

/-! ### Pattern detector and alternatives rewrite -/

def isInlineObjectWithAlternatives (baseNode extNode : Node) : Bool :=
  if baseNode.kind ≠ 4 ∨ extNode.kind ≠ 4 then false
  else match getMapValue baseNode "type" with
  | none => false
  | some baseType =>
    if baseType.value ≠ "object" then false
    else match getMapValue extNode "type" with
    | none => false
    | some extType =>
      if extType.value ≠ "object" then false
      else match getMapValue extNode "properties" with
      | none => false
      | some extProps =>
        if extProps.kind ≠ 4 then false
        else match getMapValue extProps "alternatives" with
        | none => false
        | some alts =>
          if alts.kind ≠ 4 then false
          else match getMapValue alts "type" with
          | none => false
          | some altType =>
            if altType.value ≠ "array" then false
            else match getMapValue alts "items" with
            | none => false
            | some items =>
              if items.kind ≠ 4 then false
              else match getMapValue items "type" with
              | none => false
              | some itemsType => itemsType.value == "object"

/-- buildCompositeSchema from the source, literally: constructed mapping and
sequence nodes carry an empty tag, key/value scalars carry "!!str". -/
def buildCompositeSchema (baseName : String) : Node :=
  let refValue := "#/components/schemas/" ++ baseName
  Node.mk 4 "" ""
    [scalarNode "allOf",
     Node.mk 2 "" ""
       [Node.mk 4 "" "" [scalarNode "$ref", scalarNode refValue],
        Node.mk 4 "" ""
          [scalarNode "type", scalarNode "object",
           scalarNode "properties",
           Node.mk 4 "" ""
             [scalarNode "alternatives",
              Node.mk 4 "" ""
                [scalarNode "type", scalarNode "array",
                 scalarNode "description", scalarNode "An array of other possible matches",
                 scalarNode "items",
                 Node.mk 4 "" "" [scalarNode "$ref", scalarNode refValue]]]]]]

/-- handleAlternativesPattern from the source.  Returns the rewritten
use-site schema node, the updated registry state, and the changed flag. -/
def handleAlternativesPattern (path method operationID status : String)
    (schemaNode baseNode : Node) (st : RState) : Node × RState × Bool :=
  let baseName := deriveSchemaName operationID
  if baseName = "" then
    let nameHint := deriveResponseSchemaNameHint path method operationID status
    let r := componentizeSchemaCore schemaNode nameHint st
    (r.1, r.2.1, r.2.2.2)
  else
    let compositeName := baseName ++ "WithAlternatives"
    let st1 :=
      match getMapValue st.schemas baseName with
      | some _ => st
      | none =>
        let baseSchemaNode := cloneNode baseNode
        ⟨appendMapEntry st.schemas baseName baseSchemaNode,
         (schemaFingerprint baseSchemaNode, baseName) :: st.byFp,
         insertName baseName st.names⟩
    let st2 :=
      match getMapValue st1.schemas compositeName with
      | some _ => st1
      | none =>
        let compositeSchemaNode := buildCompositeSchema baseName
        ⟨appendMapEntry st1.schemas compositeName compositeSchemaNode,
         (schemaFingerprint compositeSchemaNode, compositeName) :: st1.byFp,
         insertName compositeName st1.names⟩
    (makeRefOnlySchema schemaNode compositeName, st2, true)

/-! ### Document walker -/

/-- The fixed media-type priority list of processResponseSchema. -/
def jsonContentTypeList : List String :=
  ["application/json; charset=UTF-8",
   "application/json",
   "application/json; charset=utf-8"]

/-- The content-type selection loop of processResponseSchema, unrolled:
the first spelling of jsonContentTypeList present in the content mapping
wins, later spellings are never consulted. -/
def selectJSONContent (contentNode : Node) : Option (String × Node) :=
  match getMapValue contentNode "application/json; charset=UTF-8" with
  | some v => some ("application/json; charset=UTF-8", v)
  | none =>
    match getMapValue contentNode "application/json" with
    | some v => some ("application/json", v)
    | none =>
      match getMapValue contentNode "application/json; charset=utf-8" with
      | some v => some ("application/json; charset=utf-8", v)
      | none => none

/-- The plain (non-alternatives) rewrite of a response schema: derive a name
hint and componentize. -/
def plainRewrite (path method operationID status : String) (schemaNode : Node)
    (st : RState) : Node × RState × Bool :=
  let nameHint := deriveResponseSchemaNameHint path method operationID status
  let r := componentizeSchemaCore schemaNode nameHint st
  (r.1, r.2.1, r.2.2.2)

/-- The allOf dispatch of processResponseSchema: a two-element allOf
sequence matching the alternatives pattern goes to
handleAlternativesPattern, everything else to the plain rewrite. -/
def dispatchSchema (path method operationID status : String) (schemaNode : Node)
    (st : RState) : Node × RState × Bool :=
  match getMapValue schemaNode "allOf" with
  | some allOfNode =>
    if allOfNode.kind = 2 then
      match allOfNode.content with
      | [baseNode, extNode] =>
        if isInlineObjectWithAlternatives baseNode extNode then
          handleAlternativesPattern path method operationID status schemaNode baseNode st
        else plainRewrite path method operationID status schemaNode st
      | _ => plainRewrite path method operationID status schemaNode st
    else plainRewrite path method operationID status schemaNode st
  | none => plainRewrite path method operationID status schemaNode st

/-- processResponseSchema from the source.  The in-place mutation of the
schema node deep inside the response is rendered by rebuilding the response
with the rewritten schema at the same position. -/
def processResponseSchema (path method operationID status : String)
    (responseNode : Node) (st : RState) : Node × RState × Bool :=
  if responseNode.kind ≠ 4 then (responseNode, st, false)
  else match getMapValue responseNode "content" with
  | none => (responseNode, st, false)
  | some contentNode =>
    if contentNode.kind ≠ 4 then (responseNode, st, false)
    else match selectJSONContent contentNode with
    | none => (responseNode, st, false)
    | some (ct, appJSON) =>
      if appJSON.kind ≠ 4 then (responseNode, st, false)
      else match getMapValue appJSON "schema" with
      | none => (responseNode, st, false)
      | some schemaNode =>
        if schemaNode.kind ≠ 4 then (responseNode, st, false)
        else if isRefOnlySchema schemaNode then (responseNode, st, false)
        else
          let d := dispatchSchema path method operationID status schemaNode st
          let appJSON1 := setMapValueFirst appJSON "schema" d.1
          let contentNode1 := setMapValueFirst contentNode ct appJSON1
          (setMapValueFirst responseNode "content" contentNode1, d.2.1, d.2.2)

/-- The seven operation keys the walker recognizes. -/
def httpMethodList : List String :=
  ["get", "post", "put", "delete", "patch", "options", "head"]

/-- The responses loop of the walker: responses map entries in document
order, threading the registry state left to right. -/
def processResponses (path method operationID : String) :
    List Node → RState → List Node × RState × Bool
  | codeKey :: codeVal :: rest, st =>
    let r1 := processResponseSchema path method operationID codeKey.value codeVal st
    let r2 := processResponses path method operationID rest r1.2.1
    (codeKey :: r1.1 :: r2.1, r2.2.1, r1.2.2 || r2.2.2)
  | l, st => (l, st, false)

/-- The operationId read of the walker: the scalar value when the
operationId entry is present and a scalar, the empty string otherwise. -/
def operationIDOf (methodVal : Node) : String :=
  match getMapValue methodVal "operationId" with
  | some opNode => if opNode.kind = 8 then opNode.value else ""
  | none => ""

/-- One operation entry of a path item: skip non-method keys and non-mapping
values, read operationId when a scalar is present, and process the responses
mapping. -/
def processOperation (path method : String) (methodVal : Node) (st : RState) :
    Node × RState × Bool :=
  if ¬ httpMethodList.contains method then (methodVal, st, false)
  else if methodVal.kind ≠ 4 then (methodVal, st, false)
  else
    match getMapValue methodVal "responses" with
    | none => (methodVal, st, false)
    | some respNode =>
      if respNode.kind ≠ 4 then (methodVal, st, false)
      else
        let r := processResponses path method (operationIDOf methodVal) respNode.content st
        (setMapValueFirst methodVal "responses" (respNode.setContent r.1), r.2.1, r.2.2)

/-- The operations loop over one path item mapping. -/
def processOps (path : String) : List Node → RState → List Node × RState × Bool
  | methodKey :: methodVal :: rest, st =>
    let r1 := processOperation path methodKey.value methodVal st
    let r2 := processOps path rest r1.2.1
    (methodKey :: r1.1 :: r2.1, r2.2.1, r1.2.2 || r2.2.2)
  | l, st => (l, st, false)

/-- One path item: non-mapping items are skipped, mapping items have their
operations processed. -/
def processPathItem (path : String) (pathVal : Node) (st : RState) :
    Node × RState × Bool :=
  if pathVal.kind ≠ 4 then (pathVal, st, false)
  else
    let r := processOps path pathVal.content st
    (pathVal.setContent r.1, r.2.1, r.2.2)

/-- The paths loop: non-mapping path items are skipped. -/
def processPaths : List Node → RState → List Node × RState × Bool
  | pathKey :: pathVal :: rest, st =>
    let r1 := processPathItem pathKey.value pathVal st
    let r2 := processPaths rest r1.2.1
    (pathKey :: r1.1 :: r2.1, r2.2.1, r1.2.2 || r2.2.2)
  | l, st => (l, st, false)

/-- RefactorInlineResponseSchemas, parameterized by how the registry is
built from the schemas node (the source always uses newSchemaRegistry).
The in-place mutations of components/schemas and of the paths subtree are
rendered by reattaching the final schemas node and rewritten paths node at
their positions in the top-level mapping. -/
def refactorWith (root : Node) (mkReg : Node → RState) : Except String (Node × Bool) :=
  match root.content with
  | [] => Except.error "expected YAML document"
  | top :: restDoc =>
    if root.kind ≠ 1 then Except.error "expected YAML document"
    else if top.kind ≠ 4 then Except.error "expected top-level mapping"
    else
      let e1 := ensureMapValueF top "components"
      let top1 := e1.1
      let e2 := ensureMapValueF e1.2 "schemas"
      let comps1 := e2.1
      let st0 := mkReg e2.2
      match getMapValue top1 "paths" with
      | none => Except.error "missing or invalid paths section"
      | some pathsNode =>
        if pathsNode.kind ≠ 4 then Except.error "missing or invalid paths section"
        else
          let r := processPaths pathsNode.content st0
          let pathsNode1 := pathsNode.setContent r.1
          let comps2 := setMapValueFirst comps1 "schemas" r.2.1.schemas
          let top2 := setMapValueFirst top1 "paths" pathsNode1
          let top3 := setMapValueFirst top2 "components" comps2
          Except.ok (Node.mk root.kind root.tag root.value (top3 :: restDoc), r.2.2)

def RefactorInlineResponseSchemas (root : Node) : Except String (Node × Bool) :=
  refactorWith root newSchemaRegistry

/-! ### FormatFile and the CLI default -/

structure Options where
  dryRun : Bool
  verbose : Bool

/-- Observable effects on the destination file: os.Create (which creates or
truncates the destination) and a completed encoder write. -/
inductive FSEvent where
  | create
  | writeOut
deriving DecidableEq

/-- FormatFile from the source, with the external collaborators (file open,
YAML decode, file create, YAML encode) as abstract outcomes.  The second
component is the ordered trace of effects on the destination file. -/
def FormatFile (openRes : Except String Unit) (parseRes : Except String Node)
    (createRes : Except String Unit) (encodeRes : Except String Unit)
    (opts : Options) : Except String Unit × List FSEvent :=
  match openRes with
  | .error e => (.error ("open input: " ++ e), [])
  | .ok _ =>
    match parseRes with
    | .error e => (.error ("decode YAML: " ++ e), [])
    | .ok root =>
      match RefactorInlineResponseSchemas root with
      | .error e => (.error e, [])
      | .ok rc =>
        if opts.dryRun then (.ok (), [])
        else if rc.2 = false then (.ok (), [])
        else
          match createRes with
          | .error e => (.error ("create output: " ++ e), [])
          | .ok _ =>
            match encodeRes with
            | .error e => (.error ("encode YAML: " ++ e), [.create])
            | .ok _ => (.ok (), [.create, .writeOut])

/-- FormatCmd.Run: an empty output path defaults to the input path
(in-place formatting). -/
def resolveOutPath (input output : String) : String :=
  if output = "" then input else output

/-! ### Concrete document builders (for witnesses and counterexamples)

These mirror the node shapes gopkg.in/yaml.v3 produces when parsing:
string scalars carry tag "!!str", block mappings "!!map", sequences
"!!seq", and the document node has kind 1. -/

def ystr (s : String) : Node := Node.mk 8 "!!str" s []

def ymap (l : List (String × Node)) : Node :=
  Node.mk 4 "!!map" "" (l.foldr (fun p acc => ystr p.1 :: p.2 :: acc) [])

def yseq (l : List Node) : Node := Node.mk 2 "!!seq" "" l

def ydoc (top : Node) : Node := Node.mk 1 "" "" [top]

def yresponse (schema : Node) : Node :=
  ymap [("content", ymap [("application/json", ymap [("schema", schema)])])]

def yop (opid : String) (resp : Node) : Node :=
  ymap [("operationId", ystr opid), ("responses", ymap [("200", resp)])]

/-- A small inline object schema used by several witnesses. -/
def inlineObjA : Node :=
  ymap [("type", ystr "object"),
        ("properties", ymap [("a", ymap [("type", ystr "string")])])]

/-- A second, structurally different inline object schema. -/
def inlineObjB : Node :=
  ymap [("type", ystr "object"),
        ("properties", ymap [("b", ymap [("type", ystr "integer")])])]

/-- The base element of the alternatives idiom. -/
def altBaseEx : Node :=
  ymap [("type", ystr "object"),
        ("properties", ymap [("code", ymap [("type", ystr "string")])])]

/-- The extension element of the alternatives idiom. -/
def altExtEx : Node :=
  ymap [("type", ystr "object"),
        ("properties",
         ymap [("alternatives",
                ymap [("type", ystr "array"),
                      ("items",
                       ymap [("type", ystr "object"),
                             ("properties",
                              ymap [("code", ymap [("type", ystr "string")])])])])])]

/-- The whole use-site allOf wrapper of the alternatives idiom. -/
def altSchemaEx : Node := ymap [("allOf", yseq [altBaseEx, altExtEx])]

/-- A document with one path per given (path, operation) pair. -/
def docOfOps (l : List (String × Node)) : Node :=
  ydoc (ymap [("paths", ymap (l.map (fun p => (p.1, ymap [("get", p.2)]))))])

/-- One-operation document with an inline schema and operationId get_thing. -/
def docPlainA : Node :=
  docOfOps [("/x", yop "get_thing" (yresponse inlineObjA))]

/-- The top-level mapping of docPlainA. -/
def docPlainATop : Node :=
  ymap [("paths", ymap [("/x", ymap [("get", yop "get_thing" (yresponse inlineObjA))])])]

/-- What RefactorInlineResponseSchemas makes of docPlainA: the use-site
becomes a reference to Thing200Response, whose definition is appended under
the ensured components/schemas. -/
def docPlainAOut : Node :=
  Node.mk 1 "" ""
    [Node.mk 4 "!!map" ""
      [ystr "paths",
       ymap [("/x", ymap [("get", ymap
         [("operationId", ystr "get_thing"),
          ("responses", ymap [("200", ymap [("content", ymap [("application/json",
            ymap [("schema",
              ymap [("$ref", ystr "#/components/schemas/Thing200Response")])])])])])])])],
       ystr "components",
       Node.mk 4 "" ""
         [ystr "schemas",
          Node.mk 4 "" "" [ystr "Thing200Response", inlineObjA]]]]

/-- A reference-only schema mapping. -/
def refOnlyEx : Node := ymap [("$ref", ystr "#/components/schemas/X")]

/-- An empty (freshly created) components/schemas mapping node. -/
def emptySchemasNode : Node := Node.mk 4 "" "" []

/-- A document with an empty paths mapping: the walk changes nothing. -/
def docNoChange : Node := ydoc (ymap [("paths", ymap [])])

/-- What RefactorInlineResponseSchemas makes of docNoChange: only the
ensured empty components/schemas subtree is appended; changed is false. -/
def docNoChangeOut : Node :=
  Node.mk 1 "" ""
    [Node.mk 4 "!!map" ""
      [Node.mk 8 "!!str" "paths" [],
       Node.mk 4 "!!map" "" [],
       Node.mk 8 "!!str" "components" [],
       Node.mk 4 "" "" [Node.mk 8 "!!str" "schemas" [], Node.mk 4 "" "" []]]]

/-! ### Generic lemmas about the mapping-content helpers -/

/-- Induction principle following the two-at-a-time shape of the mapping
content walkers. -/
theorem pairInduction {motive : List Node → Prop} (h0 : motive [])
    (h1 : ∀ a, motive [a]) (h2 : ∀ a b l, motive l → motive (a :: b :: l)) :
    ∀ l, motive l
  | [] => h0
  | [a] => h1 a
  | a :: b :: l => h2 a b l (pairInduction h0 h1 h2 l)

theorem Node.kind_mk (k : Nat) (t v : String) (c : List Node) :
    (Node.mk k t v c).kind = k := rfl

theorem Node.tag_mk (k : Nat) (t v : String) (c : List Node) :
    (Node.mk k t v c).tag = t := rfl

theorem Node.value_mk (k : Nat) (t v : String) (c : List Node) :
    (Node.mk k t v c).value = v := rfl

theorem Node.content_mk (k : Nat) (t v : String) (c : List Node) :
    (Node.mk k t v c).content = c := rfl

theorem Node.setContent_kind (n : Node) (c : List Node) : (n.setContent c).kind = n.kind := rfl

theorem Node.setContent_tag (n : Node) (c : List Node) : (n.setContent c).tag = n.tag := rfl

theorem Node.setContent_value (n : Node) (c : List Node) : (n.setContent c).value = n.value := rfl

theorem Node.setContent_content (n : Node) (c : List Node) : (n.setContent c).content = c := rfl

theorem Node.setContent_setContent (n : Node) (c1 c2 : List Node) :
    (n.setContent c1).setContent c2 = n.setContent c2 := rfl

theorem Node.setContent_self (n : Node) : n.setContent n.content = n := by
  cases n; rfl

theorem lookupMapContent_setMapContent_self (key : String) (v : Node) (l : List Node) :
    lookupMapContent key (setMapContent key v l) =
      (lookupMapContent key l).map (fun _ => v) := by
  induction l using pairInduction with
  | h0 => rfl
  | h1 a => rfl
  | h2 a b l ih =>
    simp only [lookupMapContent, setMapContent]
    by_cases h : a.value = key
    · simp [h, lookupMapContent]
    · simp [h, lookupMapContent, ih]

theorem lookupMapContent_setMapContent_ne (key key2 : String) (v : Node) (l : List Node)
    (h : key2 ≠ key) :
    lookupMapContent key2 (setMapContent key v l) = lookupMapContent key2 l := by
  induction l using pairInduction with
  | h0 => rfl
  | h1 a => rfl
  | h2 a b l ih =>
    simp only [setMapContent]
    by_cases ha : a.value = key
    · have hkk : ¬ (key = key2) := fun he => h he.symm
      simp [ha, hkk, lookupMapContent]
    · simp only [if_neg ha, lookupMapContent]
      by_cases hb : a.value = key2
      · simp [hb]
      · simp [hb, ih]

theorem setMapContent_eq_of_lookup (key : String) (v : Node) (l : List Node)
    (h : lookupMapContent key l = some v) : setMapContent key v l = l := by
  induction l using pairInduction with
  | h0 => simp [lookupMapContent] at h
  | h1 a => simp [lookupMapContent] at h
  | h2 a b l ih =>
    simp only [lookupMapContent] at h
    simp only [setMapContent]
    by_cases ha : a.value = key
    · simp [ha] at h; simp [ha, h]
    · simp [ha] at h; simp [ha, ih h]

theorem setMapContent_length (key : String) (v : Node) (l : List Node) :
    (setMapContent key v l).length = l.length := by
  induction l using pairInduction with
  | h0 => rfl
  | h1 a => rfl
  | h2 a b l ih =>
    simp only [setMapContent]
    by_cases ha : a.value = key
    · simp [ha]
    · simp [ha, ih]

theorem lookupMapContent_append_ne (key key2 : String) (v : Node) (l : List Node)
    (heven : l.length % 2 = 0) (h : key2 ≠ key) :
    lookupMapContent key2 (l ++ [scalarNode key, v]) = lookupMapContent key2 l := by
  induction l using pairInduction with
  | h0 =>
    have hkk : ¬ (key = key2) := fun he => h he.symm
    simp [lookupMapContent, scalarNode, Node.value, hkk]
  | h1 a => simp at heven
  | h2 a b l ih =>
    simp only [List.cons_append, lookupMapContent]
    by_cases ha : a.value = key2
    · simp [ha]
    · simp only [List.length_cons] at heven
      have heven2 : l.length % 2 = 0 := by omega
      simp [ha, ih heven2]

theorem lookupMapContent_append_self (key : String) (v : Node) (l : List Node)
    (heven : l.length % 2 = 0) (h : lookupMapContent key l = none) :
    lookupMapContent key (l ++ [scalarNode key, v]) = some v := by
  induction l using pairInduction with
  | h0 => simp [lookupMapContent, scalarNode, Node.value]
  | h1 a => simp at heven
  | h2 a b l ih =>
    simp only [lookupMapContent] at h
    simp only [List.cons_append, lookupMapContent]
    by_cases ha : a.value = key
    · simp [ha] at h
    · simp only [List.length_cons] at heven
      have heven2 : l.length % 2 = 0 := by omega
      simp [ha] at h
      simp [ha, ih heven2 h]

theorem getMapValue_kind_ne (m : Node) (key : String) (h : m.kind ≠ 4) :
    getMapValue m key = none := by
  simp [getMapValue, h]

theorem getMapValue_eq_lookup (m : Node) (key : String) (h : m.kind = 4) :
    getMapValue m key = lookupMapContent key m.content := by
  simp [getMapValue, h]

theorem setMapValueFirst_kind (m : Node) (key : String) (v : Node) :
    (setMapValueFirst m key v).kind = m.kind := rfl

theorem getMapValue_setMapValueFirst_self (m : Node) (key : String) (v w : Node)
    (h : getMapValue m key = some w) :
    getMapValue (setMapValueFirst m key v) key = some v := by
  have hk : m.kind = 4 := by
    by_contra hk
    simp [getMapValue, hk] at h
  simp only [getMapValue, hk, if_pos] at h
  simp only [getMapValue, setMapValueFirst, Node.setContent_kind, hk, if_pos,
    Node.setContent_content]
  rw [lookupMapContent_setMapContent_self, h]
  rfl

theorem getMapValue_setMapValueFirst_ne (m : Node) (key key2 : String) (v : Node)
    (h : key2 ≠ key) :
    getMapValue (setMapValueFirst m key v) key2 = getMapValue m key2 := by
  by_cases hk : m.kind = 4
  · simp only [getMapValue, setMapValueFirst, Node.setContent_kind, hk, if_pos,
      Node.setContent_content]
    exact lookupMapContent_setMapContent_ne key key2 v m.content h
  · simp [getMapValue, setMapValueFirst, Node.setContent_kind, hk]

theorem setMapValueFirst_eq_of_lookup (m : Node) (key : String) (v : Node)
    (h : getMapValue m key = some v) : setMapValueFirst m key v = m := by
  have hk : m.kind = 4 := by
    by_contra hk
    simp [getMapValue, hk] at h
  simp only [getMapValue, hk, if_pos] at h
  simp only [setMapValueFirst]
  rw [setMapContent_eq_of_lookup key v m.content h, Node.setContent_self]

theorem appendMapEntry_kind (m : Node) (key : String) (v : Node) :
    (appendMapEntry m key v).kind = m.kind := rfl

theorem getMapValue_appendMapEntry_ne (m : Node) (key key2 : String) (v : Node)
    (heven : m.content.length % 2 = 0) (h : key2 ≠ key) :
    getMapValue (appendMapEntry m key v) key2 = getMapValue m key2 := by
  by_cases hk : m.kind = 4
  · simp only [getMapValue, appendMapEntry, Node.setContent_kind, hk, if_pos,
      Node.setContent_content]
    exact lookupMapContent_append_ne key key2 v m.content heven h
  · simp [getMapValue, appendMapEntry, Node.setContent_kind, hk]

theorem getMapValue_appendMapEntry_self (m : Node) (key : String) (v : Node)
    (hk : m.kind = 4) (heven : m.content.length % 2 = 0)
    (h : getMapValue m key = none) :
    getMapValue (appendMapEntry m key v) key = some v := by
  simp only [getMapValue, hk, if_pos] at h
  simp only [getMapValue, appendMapEntry, Node.setContent_kind, hk, if_pos,
    Node.setContent_content]
  exact lookupMapContent_append_self key v m.content heven h

/-- A content mapping carrying two JSON spellings at once: the first
priority spelling and, later, the plain application/json spelling. -/
def contentBothEx : Node :=
  ymap [("application/json; charset=UTF-8", ymap [("schema", inlineObjA)]),
        ("application/json", ymap [("schema", inlineObjB)])]

/-- A response node wrapping contentBothEx. -/
def respBothEx : Node := ymap [("content", contentBothEx)]

/-- Follow a chain of mapping keys from a node. -/
def getInPath (n : Node) (keys : List String) : Option Node :=
  keys.foldl (fun acc k => acc.bind (fun m => getMapValue m k)) (some n)

/-- The response schema use-site of a get operation, status 200,
application/json, in a document. -/
def responseSchemaAt (d : Node) (path : String) : Option Node :=
  match d.content with
  | top :: _ =>
    getInPath top ["paths", path, "get", "responses", "200", "content",
                   "application/json", "schema"]
  | _ => none

/-- The components.schemas node of a document. -/
def schemasOfDoc (d : Node) : Option Node :=
  match d.content with
  | top :: _ => getInPath top ["components", "schemas"]
  | _ => none

/-- How many entries of a mapping content list have a value with the given
fingerprint. -/
def countFpContent (fp : String) : List Node → Nat
  | _ :: v :: rest => (if schemaFingerprint v = fp then 1 else 0) + countFpContent fp rest
  | _ => 0

/-- Two operations at different paths with byte-identical inline response
schemas, both shaped as the alternatives idiom, with different operation
identifiers. -/
def docAltTwo : Node :=
  ydoc (ymap [("paths",
    ymap [("/a", ymap [("get", yop "get_airport" (yresponse altSchemaEx))]),
          ("/b", ymap [("get", yop "get_operator" (yresponse altSchemaEx))])])])

/-- The rewritten document of a successful refactor run. -/
def refactorResultDoc (d : Node) : Option Node :=
  match RefactorInlineResponseSchemas d with
  | .ok r => some r.1
  | .error _ => none

/-- Observational equivalence of registry states: same schemas node,
duplicate-free name sets with the same membership, fingerprint tables with
the same lookup function.  A Go map provides exactly this interface, and it
is independent of the map internal ordering; the code never iterates over
either map. -/
def StEquiv (st1 st2 : RState) : Prop :=
  st1.schemas = st2.schemas ∧
  st1.names.Nodup ∧ st2.names.Nodup ∧
  (∀ n, n ∈ st1.names ↔ n ∈ st2.names) ∧
  (∀ fp, lookupFp st1.byFp fp = lookupFp st2.byFp fp)

/-- Equivalence of componentizeSchemaCore results: equal node, name and
flag, equivalent states. -/
def CResEquiv (r1 r2 : Node × RState × String × Bool) : Prop :=
  r1.1 = r2.1 ∧ StEquiv r1.2.1 r2.2.1 ∧ r1.2.2.1 = r2.2.2.1 ∧ r1.2.2.2 = r2.2.2.2

/-- Equivalence of walker step results. -/
def ResEquiv (r1 r2 : Node × RState × Bool) : Prop :=
  r1.1 = r2.1 ∧ StEquiv r1.2.1 r2.2.1 ∧ r1.2.2 = r2.2.2

/-- Equivalence of walker loop results. -/
def ResLEquiv (r1 r2 : List Node × RState × Bool) : Prop :=
  r1.1 = r2.1 ∧ StEquiv r1.2.1 r2.2.1 ∧ r1.2.2 = r2.2.2

/-- The (name, value) entries of a mapping content list, read two at a
time in document order (a trailing odd node is ignored, as the Go loops
with i += 2 do). -/
def entriesOf : List Node → List (String × Node)
  | k :: v :: rest => (k.value, v) :: entriesOf rest
  | _ => []

/-- No two entries of a mapping content list hold structurally distinct
schemas (different fingerprints) under the same component name. -/
def NoDistinctDup (l : List Node) : Prop :=
  ∀ p ∈ entriesOf l, ∀ q ∈ entriesOf l,
    p.1 = q.1 → schemaFingerprint p.2 = schemaFingerprint q.2

instance NoDistinctDup.dec (l : List Node) : Decidable (NoDistinctDup l) :=
  inferInstanceAs (Decidable (∀ p ∈ entriesOf l, ∀ q ∈ entriesOf l,
    p.1 = q.1 → schemaFingerprint p.2 = schemaFingerprint q.2))

/-- The registry invariant maintained throughout a run: the schemas node is
a mapping with evenly paired content, no two structurally distinct schemas
sit under the same component name, and every component name is recorded in
existingNames. -/
def RegInv (st : RState) : Prop :=
  st.schemas.kind = 4 ∧ st.schemas.content.length % 2 = 0 ∧
  NoDistinctDup st.schemas.content ∧
  ∀ p ∈ entriesOf st.schemas.content, p.1 ∈ st.names

/-- A pre-existing component schema, structurally distinct from inlineObjA
and inlineObjB. -/
def preC4 : Node :=
  ymap [("type", ystr "object"),
        ("properties", ymap [("c", ymap [("type", ystr "boolean")])])]

/-- A document whose components.schemas already holds a component named
ThingsGet200Response, plus two operations without operationId at paths
/things and /Things: both derive the colliding name hint
ThingsGet200Response, and their inline schemas are structurally distinct. -/
def docC4pre : Node :=
  ydoc (ymap
    [("components", ymap [("schemas", ymap [("ThingsGet200Response", preC4)])]),
     ("paths",
      ymap [("/things",
             ymap [("get", ymap [("responses", ymap [("200", yresponse inlineObjA)])])]),
            ("/Things",
             ymap [("get", ymap [("responses", ymap [("200", yresponse inlineObjB)])])])])])

/-! ### Claim C6: fallback naming -/

/-- Claim C6: for an empty operationId, path /flights/{id}/track, method
get and status 200, deriveResponseSchemaNameHint returns exactly
FlightsIdTrackGet200Response. -/
theorem claim_C6_fallback_naming :
    deriveResponseSchemaNameHint "/flights/{id}/track" "get" "" "200" =
      "FlightsIdTrackGet200Response" := by decide

/-! ### Claim C5: componentize no-op precondition -/

/-- Claim C5: for a schemaNode that is nil, not a mapping, or already
reference-only, componentizeSchema returns ("", false), leaves the node
identical, and creates no new registry entry or components.schemas
entry (the registry state is returned unchanged). -/
theorem claim_C5_componentize_noop (sOpt : Option Node) (hint : String) (st : RState)
    (h : sOpt = none ∨ ∃ s, sOpt = some s ∧ (s.kind ≠ 4 ∨ isRefOnlySchema s = true)) :
    componentizeSchema sOpt hint st = (sOpt, st, "", false) := by
  rcases h with h | ⟨s, rfl, h⟩
  · subst h; rfl
  · rcases h with h | h
    · simp [componentizeSchema, componentizeSchemaCore, h]
    · by_cases hk : s.kind = 4
      · simp [componentizeSchema, componentizeSchemaCore, hk, h]
      · simp [componentizeSchema, componentizeSchemaCore, hk]

theorem claim_C5_witness :
    ((some refOnlyEx = none ∨
      ∃ s, some refOnlyEx = some s ∧ (s.kind ≠ 4 ∨ isRefOnlySchema s = true)) ∧
     componentizeSchema (some refOnlyEx) "Hint" (newSchemaRegistry emptySchemasNode) =
       (some refOnlyEx, newSchemaRegistry emptySchemasNode, "", false)) :=
  ⟨Or.inr ⟨refOnlyEx, rfl, Or.inr (by decide)⟩,
   claim_C5_componentize_noop (some refOnlyEx) "Hint" (newSchemaRegistry emptySchemasNode)
     (Or.inr ⟨refOnlyEx, rfl, Or.inr (by decide)⟩)⟩

/-! ### Claim C3: alternatives idiom rewrite -/

/-- Claim C3: on a response schema that is a two-element allOf matching the
alternatives pattern, with operation identifier get_airport and with the
names Airport and AirportWithAlternatives not yet present in
components.schemas, the rewrite appends the component Airport (a clone of
the first allOf element) and the component AirportWithAlternatives (the
built composite: an allOf of a ref to Airport plus an alternatives array
whose items ref Airport), registers both, and replaces the whole use-site
allOf wrapper with a single ref to AirportWithAlternatives. -/
theorem claim_C3_alternatives (path method status : String) (st : RState)
    (schemaNode baseNode extNode : Node)
    (hpat : isInlineObjectWithAlternatives baseNode extNode = true)
    (heven : st.schemas.content.length % 2 = 0)
    (h1 : getMapValue st.schemas "Airport" = none)
    (h2 : getMapValue st.schemas "AirportWithAlternatives" = none) :
    handleAlternativesPattern path method "get_airport" status schemaNode baseNode st =
      (makeRefOnlySchema schemaNode "AirportWithAlternatives",
       ⟨appendMapEntry (appendMapEntry st.schemas "Airport" baseNode)
          "AirportWithAlternatives" (buildCompositeSchema "Airport"),
        (schemaFingerprint (buildCompositeSchema "Airport"), "AirportWithAlternatives") ::
          (schemaFingerprint baseNode, "Airport") :: st.byFp,
        insertName "AirportWithAlternatives" (insertName "Airport" st.names)⟩,
       true) := by
  have hname : deriveSchemaName "get_airport" = "Airport" := by decide
  have hcomp : "Airport" ++ "WithAlternatives" = "AirportWithAlternatives" := by decide
  have h2b : getMapValue (appendMapEntry st.schemas "Airport" baseNode)
      "AirportWithAlternatives" = none := by
    rw [getMapValue_appendMapEntry_ne st.schemas "Airport" "AirportWithAlternatives"
      baseNode heven (by decide)]
    exact h2
  simp only [handleAlternativesPattern, hname, hcomp, cloneNode]
  rw [h1, h2b]
  simp

theorem claim_C3_witness :
    (isInlineObjectWithAlternatives altBaseEx altExtEx = true ∧
     (newSchemaRegistry emptySchemasNode).schemas.content.length % 2 = 0 ∧
     getMapValue (newSchemaRegistry emptySchemasNode).schemas "Airport" = none ∧
     getMapValue (newSchemaRegistry emptySchemasNode).schemas "AirportWithAlternatives" = none) ∧
    handleAlternativesPattern "/airports/{id}" "get" "get_airport" "200"
        altSchemaEx altBaseEx (newSchemaRegistry emptySchemasNode) =
      (makeRefOnlySchema altSchemaEx "AirportWithAlternatives",
       ⟨appendMapEntry (appendMapEntry (newSchemaRegistry emptySchemasNode).schemas
          "Airport" altBaseEx)
          "AirportWithAlternatives" (buildCompositeSchema "Airport"),
        (schemaFingerprint (buildCompositeSchema "Airport"), "AirportWithAlternatives") ::
          (schemaFingerprint altBaseEx, "Airport") ::
            (newSchemaRegistry emptySchemasNode).byFp,
        insertName "AirportWithAlternatives"
          (insertName "Airport" (newSchemaRegistry emptySchemasNode).names)⟩,
       true) :=
  ⟨⟨by decide, by decide, by decide, by decide⟩,
   claim_C3_alternatives "/airports/{id}" "get" "200" (newSchemaRegistry emptySchemasNode)
     altSchemaEx altBaseEx altExtEx (by decide) (by decide) (by decide) (by decide)⟩

/-! ### Claim C10: unchanged document, no dry run, destination untouched -/

/-- Claim C10: when the refactor pass reports changed = false and DryRun is
false, FormatFile returns success without creating, truncating or writing
the destination (the destination event trace is empty; the unchanged
document is never re-serialized), and the CLI resolves an empty output path
to the input path, so in the default in-place mode it is the input file that
is left untouched. -/
theorem claim_C10_unchanged_no_write (openRes : Except String Unit)
    (root out : Node) (createRes encodeRes : Except String Unit) (opts : Options)
    (ho : openRes = .ok ()) (hdr : opts.dryRun = false)
    (hrefac : RefactorInlineResponseSchemas root = .ok (out, false)) :
    FormatFile openRes (.ok root) createRes encodeRes opts = (.ok (), []) ∧
    ∀ inp : String, resolveOutPath inp "" = inp := by
  constructor
  · subst ho
    simp [FormatFile, hrefac, hdr]
  · intro inp; rfl

theorem claim_C10_witness :
    ((.ok () : Except String Unit) = .ok () ∧
     (Options.mk false false).dryRun = false ∧
     RefactorInlineResponseSchemas docNoChange = .ok (docNoChangeOut, false)) ∧
    (FormatFile (.ok ()) (.ok docNoChange) (.ok ()) (.ok ())
        (Options.mk false false) = (.ok (), []) ∧
     ∀ inp : String, resolveOutPath inp "" = inp) :=
  ⟨⟨rfl, rfl, rfl⟩,
   claim_C10_unchanged_no_write (.ok ()) docNoChange docNoChangeOut (.ok ()) (.ok ())
     (Options.mk false false) rfl rfl rfl⟩

/-! ### Claim C8: atomicity of the destination file -/

/-- Claim C8 counterexample: with a successful open, decode, refactor (with
changes) and create, a failing encode stage leaves the destination created
and truncated but never completely written ([.create] without .writeOut is a
half-written output file), while FormatFile reports a failure.  This
refutes the part of the claim saying that no failure of any stage (encode
included) leaves a half-written output file. -/
theorem claim_C8_counterexample :
    FormatFile (.ok ()) (.ok docPlainA) (.ok ()) (.error "disk full")
        (Options.mk false false) =
      (.error "encode YAML: disk full", [.create]) := rfl

/-- Claim C8 (amended): the destination is never touched before the entire
in-memory rewrite completes successfully: any run whose destination event
trace is non-empty had a successful open, a successful decode, a successful
refactor that reported changes, no dry-run, and a successful create.
Failures of the open, decode, refactor or create stages therefore leave the
destination untouched; only a failure of the encode stage, after the
destination has already been created, can leave a partial file. -/
theorem claim_C8_amended_dest_touch (openRes : Except String Unit)
    (parseRes : Except String Node) (createRes encodeRes : Except String Unit)
    (opts : Options)
    (h : (FormatFile openRes parseRes createRes encodeRes opts).2 ≠ []) :
    openRes = .ok () ∧ opts.dryRun = false ∧ createRes = .ok () ∧
    ∃ root out, parseRes = .ok root ∧
      RefactorInlineResponseSchemas root = .ok (out, true) := by
  match openRes with
  | .error e => simp [FormatFile] at h
  | .ok u =>
    cases u
    match parseRes with
    | .error e => simp [FormatFile] at h
    | .ok root =>
      match hr : RefactorInlineResponseSchemas root with
      | .error e => simp [FormatFile, hr] at h
      | .ok rc =>
        match hdr : opts.dryRun with
        | true => simp [FormatFile, hr, hdr] at h
        | false =>
          match hc : rc.2 with
          | false => simp [FormatFile, hr, hdr, hc] at h
          | true =>
            match createRes with
            | .error e => simp [FormatFile, hr, hdr, hc] at h
            | .ok u2 =>
              cases u2
              exact ⟨rfl, rfl, rfl, root, rc.1, rfl, by rw [hr, ← hc]⟩

theorem claim_C8_witness :
    (FormatFile (.ok ()) (.ok docPlainA) (.ok ()) (.error "device detached")
        (Options.mk false false)).2 ≠ [] ∧
    ((.ok () : Except String Unit) = .ok () ∧
     (Options.mk false false).dryRun = false ∧
     (.ok () : Except String Unit) = .ok () ∧
     ∃ root out, (.ok docPlainA : Except String Node) = .ok root ∧
       RefactorInlineResponseSchemas root = .ok (out, true)) :=
  ⟨by decide,
   claim_C8_amended_dest_touch (.ok ()) (.ok docPlainA) (.ok ())
     (.error "device detached") (Options.mk false false) (by decide)⟩

/-! ### Case characterization of processResponseSchema -/

/-- Every run of processResponseSchema either leaves the response, the
state and the changed flag untouched, or finds a JSON content entry with a
non-reference mapping schema and rewrites exactly that schema position
through the dispatch. -/
theorem processResponseSchema_cases (responseNode : Node) :
    (∀ path method operationID status st,
      processResponseSchema path method operationID status responseNode st =
        (responseNode, st, false)) ∨
    (∃ contentNode ct appJSON schemaNode,
      responseNode.kind = 4 ∧
      getMapValue responseNode "content" = some contentNode ∧ contentNode.kind = 4 ∧
      selectJSONContent contentNode = some (ct, appJSON) ∧ appJSON.kind = 4 ∧
      getMapValue appJSON "schema" = some schemaNode ∧ schemaNode.kind = 4 ∧
      isRefOnlySchema schemaNode = false ∧
      ∀ path method operationID status st,
        processResponseSchema path method operationID status responseNode st =
          (setMapValueFirst responseNode "content"
            (setMapValueFirst contentNode ct
              (setMapValueFirst appJSON "schema"
                (dispatchSchema path method operationID status schemaNode st).1)),
           (dispatchSchema path method operationID status schemaNode st).2.1,
           (dispatchSchema path method operationID status schemaNode st).2.2)) := by
  by_cases h1 : responseNode.kind = 4
  case neg => left; intro p m o s st; simp [processResponseSchema, h1]
  cases hC : getMapValue responseNode "content" with
  | none => left; intro p m o s st; simp [processResponseSchema, h1, hC]
  | some contentNode =>
    by_cases h2 : contentNode.kind = 4
    case neg => left; intro p m o s st; simp [processResponseSchema, h1, hC, h2]
    cases hS : selectJSONContent contentNode with
    | none => left; intro p m o s st; simp [processResponseSchema, h1, hC, h2, hS]
    | some pr =>
      obtain ⟨ct, appJSON⟩ := pr
      by_cases h3 : appJSON.kind = 4
      case neg => left; intro p m o s st; simp [processResponseSchema, h1, hC, h2, hS, h3]
      cases hSch : getMapValue appJSON "schema" with
      | none => left; intro p m o s st; simp [processResponseSchema, h1, hC, h2, hS, h3, hSch]
      | some schemaNode =>
        by_cases h4 : schemaNode.kind = 4
        case neg =>
          left; intro p m o s st
          simp [processResponseSchema, h1, hC, h2, hS, h3, hSch, h4]
        by_cases h5 : isRefOnlySchema schemaNode = true
        case pos =>
          left; intro p m o s st
          simp [processResponseSchema, h1, hC, h2, hS, h3, hSch, h4, h5]
        right
        refine ⟨contentNode, ct, appJSON, schemaNode, h1, rfl, h2, hS, h3, hSch, h4,
          by simpa using h5, ?_⟩
        intro p m o s st
        simp [processResponseSchema, h1, hC, h2, hS, h3, hSch, h4, h5]

/-! ### Claim C7: content-type selection order -/

/-- Claim C7: for a response with a content mapping, the walker selects the
value of the first key present among, in this exact order,
application/json; charset=UTF-8, application/json,
application/json; charset=utf-8; and for any key other than the selected
one (in particular any later spelling also present), the content entry
under that key is not rewritten by processResponseSchema. -/
theorem claim_C7_content_type_priority :
    (∀ contentNode v,
      getMapValue contentNode "application/json; charset=UTF-8" = some v →
      selectJSONContent contentNode = some ("application/json; charset=UTF-8", v)) ∧
    (∀ contentNode v,
      getMapValue contentNode "application/json; charset=UTF-8" = none →
      getMapValue contentNode "application/json" = some v →
      selectJSONContent contentNode = some ("application/json", v)) ∧
    (∀ contentNode v,
      getMapValue contentNode "application/json; charset=UTF-8" = none →
      getMapValue contentNode "application/json" = none →
      getMapValue contentNode "application/json; charset=utf-8" = some v →
      selectJSONContent contentNode = some ("application/json; charset=utf-8", v)) ∧
    (∀ path method operationID status responseNode st contentNode ct appJSON key,
      getMapValue responseNode "content" = some contentNode →
      selectJSONContent contentNode = some (ct, appJSON) →
      key ≠ ct →
      ∃ contentNode1,
        getMapValue (processResponseSchema path method operationID status
            responseNode st).1 "content" = some contentNode1 ∧
        getMapValue contentNode1 key = getMapValue contentNode key) := by
  refine ⟨?_, ?_, ?_, ?_⟩
  · intro c v h; simp [selectJSONContent, h]
  · intro c v h1 h2; simp [selectJSONContent, h1, h2]
  · intro c v h1 h2 h3; simp [selectJSONContent, h1, h2, h3]
  · intro path method operationID status responseNode st contentNode ct appJSON key hc hsel hne
    rcases processResponseSchema_cases responseNode with
      heq | ⟨c2, ct2, a2, s2, hk2, hc2, hck2, hsel2, hak2, hs2, hsk2, href2, heq⟩
    · rw [heq path method operationID status st]; exact ⟨contentNode, hc, rfl⟩
    · rw [hc] at hc2
      injection hc2 with hceq
      subst hceq
      rw [hsel] at hsel2
      injection hsel2 with hpr
      have hct : ct = ct2 := congrArg Prod.fst hpr
      subst hct
      rw [heq path method operationID status st]
      refine ⟨_, getMapValue_setMapValueFirst_self responseNode "content" _ contentNode hc, ?_⟩
      exact getMapValue_setMapValueFirst_ne contentNode ct key _ hne

theorem claim_C7_witness :
    (getMapValue contentBothEx "application/json; charset=UTF-8" =
        some (ymap [("schema", inlineObjA)]) ∧
     getMapValue respBothEx "content" = some contentBothEx ∧
     "application/json" ≠ "application/json; charset=UTF-8") ∧
    selectJSONContent contentBothEx =
      some ("application/json; charset=UTF-8", ymap [("schema", inlineObjA)]) ∧
    (∃ contentNode1,
      getMapValue (processResponseSchema "/x" "get" "" "200" respBothEx
          (newSchemaRegistry emptySchemasNode)).1 "content" = some contentNode1 ∧
      getMapValue contentNode1 "application/json" =
        getMapValue contentBothEx "application/json") :=
  ⟨⟨by decide, by decide, by decide⟩,
   claim_C7_content_type_priority.1 contentBothEx (ymap [("schema", inlineObjA)]) (by decide),
   claim_C7_content_type_priority.2.2.2 "/x" "get" "" "200" respBothEx
     (newSchemaRegistry emptySchemasNode) contentBothEx
     "application/json; charset=UTF-8" (ymap [("schema", inlineObjA)])
     "application/json" (by decide) (by decide) (by decide)⟩

/-! ### Claim C2: deduplication by fingerprint -/

/-- Claim C2 counterexample: docAltTwo contains two inline response schemas
at different operations with equal fingerprints (the same altSchemaEx
node).  After the transform the two use-sites are reference-only mappings
pointing at two DIFFERENT component names (AirportWithAlternatives and
OperatorWithAlternatives), and components.schemas receives two entries of
the identical shape (fingerprint of altBaseEx appears twice), because the
alternatives rewrite checks name existence rather than fingerprints.  This
refutes both parts of the claim as stated. -/
theorem claim_C2_counterexample :
    schemaFingerprint altSchemaEx = schemaFingerprint altSchemaEx ∧
    (refactorResultDoc docAltTwo).bind (fun d => responseSchemaAt d "/a") =
      some (makeRefOnlySchema altSchemaEx "AirportWithAlternatives") ∧
    (refactorResultDoc docAltTwo).bind (fun d => responseSchemaAt d "/b") =
      some (makeRefOnlySchema altSchemaEx "OperatorWithAlternatives") ∧
    makeRefOnlySchema altSchemaEx "AirportWithAlternatives" ≠
      makeRefOnlySchema altSchemaEx "OperatorWithAlternatives" ∧
    ((refactorResultDoc docAltTwo).bind schemasOfDoc).map
      (fun s => countFpContent (schemaFingerprint altBaseEx) s.content) = some 2 := by
  refine ⟨rfl, by decide, by decide, by decide, ?_⟩
  set_option maxRecDepth 4000 in decide

/-- Claim C2 (amended): deduplication by fingerprint holds on the plain
componentize path: for two non-reference mapping schema nodes with equal
fingerprints whose fingerprint is not yet registered, the first
componentizeSchemaCore call creates exactly one new components.schemas
entry under a fresh name, and the second call (whatever its name hint)
rewrites its use-site into a reference-only mapping pointing at that same
single name without touching the registry or the schemas node again. -/
theorem claim_C2_amended_dedup (s1 s2 : Node) (hint1 hint2 : String) (st : RState)
    (hk1 : s1.kind = 4) (hr1 : isRefOnlySchema s1 = false)
    (hk2 : s2.kind = 4) (hr2 : isRefOnlySchema s2 = false)
    (hfp : schemaFingerprint s2 = schemaFingerprint s1)
    (hfresh : lookupFp st.byFp (schemaFingerprint s1) = none) :
    ∃ name st1,
      componentizeSchemaCore s1 hint1 st = (makeRefOnlySchema s1 name, st1, name, true) ∧
      componentizeSchemaCore s2 hint2 st1 = (makeRefOnlySchema s2 name, st1, name, true) ∧
      st1.schemas = appendMapEntry st.schemas name s1 := by
  refine ⟨ensureUniqueName st (if hint1 = "" then "InlineSchema" else hint1)
      (schemaFingerprint s1),
    ⟨appendMapEntry st.schemas
       (ensureUniqueName st (if hint1 = "" then "InlineSchema" else hint1)
         (schemaFingerprint s1)) s1,
     (schemaFingerprint s1,
      ensureUniqueName st (if hint1 = "" then "InlineSchema" else hint1)
        (schemaFingerprint s1)) :: st.byFp,
     insertName
       (ensureUniqueName st (if hint1 = "" then "InlineSchema" else hint1)
         (schemaFingerprint s1)) st.names⟩, ?_, ?_, rfl⟩
  · simp [componentizeSchemaCore, hk1, hr1, hfresh, cloneNode]
  · simp [componentizeSchemaCore, hk2, hr2, hfp, lookupFp, List.find?]

theorem claim_C2_witness :
    (inlineObjA.kind = 4 ∧ isRefOnlySchema inlineObjA = false ∧
     schemaFingerprint inlineObjA = schemaFingerprint inlineObjA ∧
     lookupFp (newSchemaRegistry emptySchemasNode).byFp
       (schemaFingerprint inlineObjA) = none) ∧
    (∃ name st1,
      componentizeSchemaCore inlineObjA "Foo" (newSchemaRegistry emptySchemasNode) =
        (makeRefOnlySchema inlineObjA name, st1, name, true) ∧
      componentizeSchemaCore inlineObjA "Bar" st1 =
        (makeRefOnlySchema inlineObjA name, st1, name, true) ∧
      st1.schemas =
        appendMapEntry (newSchemaRegistry emptySchemasNode).schemas name inlineObjA) :=
  ⟨⟨by decide, by decide, rfl, by decide⟩,
   claim_C2_amended_dedup inlineObjA inlineObjA "Foo" "Bar"
     (newSchemaRegistry emptySchemasNode)
     (by decide) (by decide) (by decide) (by decide) rfl (by decide)⟩

/-! ### Rewritten schemas are reference-only; second-pass stability -/

theorem isRefOnly_makeRefOnly (s : Node) (name : String) (hk : s.kind = 4) :
    isRefOnlySchema (makeRefOnlySchema s name) = true := by
  cases s with
  | mk k t v c =>
    simp only [Node.kind] at hk
    simp [isRefOnlySchema, makeRefOnlySchema, Node.setContent, Node.kind, Node.tag,
      Node.value, Node.content, scalarNode, hk]

theorem isRefOnly_kind (s : Node) (h : isRefOnlySchema s = true) : s.kind = 4 := by
  unfold isRefOnlySchema at h
  split at h
  · simp only [Bool.and_eq_true, beq_iff_eq] at h
    exact h.1
  · exact absurd h (by simp)

theorem componentizeSchemaCore_post (s : Node) (hint : String) (st : RState)
    (hk : s.kind = 4) (hr : isRefOnlySchema s = false) :
    isRefOnlySchema (componentizeSchemaCore s hint st).1 = true ∧
    (componentizeSchemaCore s hint st).2.2.2 = true := by
  cases hf : lookupFp st.byFp (schemaFingerprint s) with
  | some n =>
    simp [componentizeSchemaCore, hk, hr, hf, isRefOnly_makeRefOnly s n hk]
  | none =>
    simp only [componentizeSchemaCore, hk, hr, hf]
    exact ⟨isRefOnly_makeRefOnly s _ hk, by simp⟩

theorem handleAlternativesPattern_post (p m o s2 : String) (schemaNode baseNode : Node)
    (st : RState) (hk : schemaNode.kind = 4) (hr : isRefOnlySchema schemaNode = false) :
    isRefOnlySchema (handleAlternativesPattern p m o s2 schemaNode baseNode st).1 = true ∧
    (handleAlternativesPattern p m o s2 schemaNode baseNode st).2.2 = true := by
  by_cases hb : deriveSchemaName o = ""
  · have hc := componentizeSchemaCore_post schemaNode
      (deriveResponseSchemaNameHint p m o s2) st hk hr
    simp [handleAlternativesPattern, hb]
    exact hc
  · simp [handleAlternativesPattern, hb, isRefOnly_makeRefOnly schemaNode _ hk]

/-- The dispatch either diverts to the alternatives rewrite (for some base
node) or performs the plain rewrite; which one depends only on the schema
node. -/
theorem dispatchSchema_cases (p m o s2 : String) (schemaNode : Node) :
    (∃ baseNode, ∀ st, dispatchSchema p m o s2 schemaNode st =
        handleAlternativesPattern p m o s2 schemaNode baseNode st) ∨
    (∀ st, dispatchSchema p m o s2 schemaNode st =
        plainRewrite p m o s2 schemaNode st) := by
  unfold dispatchSchema
  cases ha : getMapValue schemaNode "allOf" with
  | none => right; intro st; rfl
  | some allOfNode =>
    cases allOfNode with
    | mk ak atag aval ac =>
      by_cases hk2 : ak = 2
      case neg =>
        right; intro st
        simp [Node.kind, hk2]
      subst hk2
      simp only [Node.kind, Node.content, if_pos]
      rcases ac with _ | ⟨b, _ | ⟨e, _ | ⟨z, r⟩⟩⟩
      · right; intro st; rfl
      · right; intro st; rfl
      · by_cases hpat : isInlineObjectWithAlternatives b e = true
        · left
          refine ⟨b, fun st => ?_⟩
          simp [hpat]
        · right; intro st
          simp only [Bool.not_eq_true] at hpat
          simp [hpat]
      · right; intro st; rfl

theorem dispatchSchema_post (p m o s2 : String) (schemaNode : Node) (st : RState)
    (hk : schemaNode.kind = 4) (hr : isRefOnlySchema schemaNode = false) :
    isRefOnlySchema (dispatchSchema p m o s2 schemaNode st).1 = true ∧
    (dispatchSchema p m o s2 schemaNode st).2.2 = true := by
  rcases dispatchSchema_cases p m o s2 schemaNode with ⟨b, he⟩ | he
  · rw [he st]
    exact handleAlternativesPattern_post p m o s2 schemaNode b st hk hr
  · rw [he st]
    have hc := componentizeSchemaCore_post schemaNode
      (deriveResponseSchemaNameHint p m o s2) st hk hr
    simpa [plainRewrite] using hc

theorem selectJSONContent_set (c : Node) (ct : String) (a a1 : Node)
    (h : selectJSONContent c = some (ct, a)) :
    selectJSONContent (setMapValueFirst c ct a1) = some (ct, a1) := by
  unfold selectJSONContent at h ⊢
  cases h1 : getMapValue c "application/json; charset=UTF-8" with
  | some v =>
    rw [h1] at h
    injection h with hpr
    have hct : "application/json; charset=UTF-8" = ct := congrArg Prod.fst hpr
    subst hct
    rw [getMapValue_setMapValueFirst_self c _ a1 v h1]
  | none =>
    cases h2 : getMapValue c "application/json" with
    | some v =>
      rw [h1, h2] at h
      injection h with hpr
      have hct : "application/json" = ct := congrArg Prod.fst hpr
      subst hct
      rw [getMapValue_setMapValueFirst_ne c "application/json"
            "application/json; charset=UTF-8" a1 (by decide), h1,
          getMapValue_setMapValueFirst_self c _ a1 v h2]
    | none =>
      cases h3 : getMapValue c "application/json; charset=utf-8" with
      | some v =>
        rw [h1, h2, h3] at h
        injection h with hpr
        have hct : "application/json; charset=utf-8" = ct := congrArg Prod.fst hpr
        subst hct
        rw [getMapValue_setMapValueFirst_ne c _ "application/json; charset=UTF-8" a1
              (by decide), h1,
            getMapValue_setMapValueFirst_ne c _ "application/json" a1 (by decide), h2,
            getMapValue_setMapValueFirst_self c _ a1 v h3]
      | none =>
        rw [h1, h2, h3] at h
        exact absurd h (by simp)

/-- A response node that has been through processResponseSchema is inert: a
second pass, with any naming context and any registry state, returns it
unchanged with changed = false. -/
theorem processResponseSchema_stable (p m o s : String) (n : Node) (st : RState) :
    ∀ p2 m2 o2 s2 st2,
      processResponseSchema p2 m2 o2 s2 (processResponseSchema p m o s n st).1 st2 =
        ((processResponseSchema p m o s n st).1, st2, false) := by
  intro p2 m2 o2 s2 st2
  rcases processResponseSchema_cases n with
    hL | ⟨cN, ct, aJ, sN, hk, hc, hck, hsel, hak, hs, hsk, href, hR⟩
  · rw [hL p m o s st]
    exact hL p2 m2 o2 s2 st2
  · rw [hR p m o s st]
    have hd := dispatchSchema_post p m o s sN st hsk href
    have hdk : (dispatchSchema p m o s sN st).1.kind = 4 := isRefOnly_kind _ hd.1
    have hk1 : (setMapValueFirst n "content"
        (setMapValueFirst cN ct
          (setMapValueFirst aJ "schema" (dispatchSchema p m o s sN st).1))).kind = 4 := by
      rw [setMapValueFirst_kind]; exact hk
    have hc1 : getMapValue (setMapValueFirst n "content"
        (setMapValueFirst cN ct
          (setMapValueFirst aJ "schema" (dispatchSchema p m o s sN st).1))) "content" =
        some (setMapValueFirst cN ct
          (setMapValueFirst aJ "schema" (dispatchSchema p m o s sN st).1)) :=
      getMapValue_setMapValueFirst_self n "content" _ cN hc
    have hck1 : (setMapValueFirst cN ct
        (setMapValueFirst aJ "schema" (dispatchSchema p m o s sN st).1)).kind = 4 := by
      rw [setMapValueFirst_kind]; exact hck
    have hsel1 : selectJSONContent (setMapValueFirst cN ct
        (setMapValueFirst aJ "schema" (dispatchSchema p m o s sN st).1)) =
        some (ct, setMapValueFirst aJ "schema" (dispatchSchema p m o s sN st).1) :=
      selectJSONContent_set cN ct aJ _ hsel
    have hak1 : (setMapValueFirst aJ "schema" (dispatchSchema p m o s sN st).1).kind = 4 := by
      rw [setMapValueFirst_kind]; exact hak
    have hs1 : getMapValue (setMapValueFirst aJ "schema"
        (dispatchSchema p m o s sN st).1) "schema" =
        some (dispatchSchema p m o s sN st).1 :=
      getMapValue_setMapValueFirst_self aJ "schema" _ sN hs
    simp [processResponseSchema, hk1, hc1, hck1, hsel1, hak1, hs1, hdk, hd.1]

/-- The responses loop is inert on its own output. -/
theorem processResponses_stable (p m o : String) (l : List Node) :
    ∀ st p2 m2 o2 st2,
      processResponses p2 m2 o2 (processResponses p m o l st).1 st2 =
        ((processResponses p m o l st).1, st2, false) := by
  induction l using pairInduction with
  | h0 => intro st p2 m2 o2 st2; rfl
  | h1 a => intro st p2 m2 o2 st2; rfl
  | h2 a b l ih =>
    intro st p2 m2 o2 st2
    simp only [processResponses]
    rw [processResponseSchema_stable p m o a.value b st p2 m2 o2 a.value st2]
    rw [ih (processResponseSchema p m o a.value b st).2.1 p2 m2 o2 st2]
    simp

/-- A processed operation entry is inert under a second pass with the same
method key. -/
theorem processOperation_stable (p m : String) (mv : Node) (st : RState) :
    ∀ p2 st2, processOperation p2 m (processOperation p m mv st).1 st2 =
      ((processOperation p m mv st).1, st2, false) := by
  intro p2 st2
  by_cases h1 : m ∈ httpMethodList
  case neg => simp [processOperation, h1]
  by_cases h2 : mv.kind = 4
  case neg => simp [processOperation, h1, h2]
  cases hresp : getMapValue mv "responses" with
  | none => simp [processOperation, h1, h2, hresp]
  | some respNode =>
    by_cases h3 : respNode.kind = 4
    case neg => simp [processOperation, h1, h2, hresp, h3]
    have hpass1 : processOperation p m mv st =
        (setMapValueFirst mv "responses"
          (respNode.setContent
            (processResponses p m (operationIDOf mv) respNode.content st).1),
         (processResponses p m (operationIDOf mv) respNode.content st).2.1,
         (processResponses p m (operationIDOf mv) respNode.content st).2.2) := by
      simp [processOperation, h1, h2, hresp, h3]
    rw [hpass1]
    have hk1 : (setMapValueFirst mv "responses"
        (respNode.setContent
          (processResponses p m (operationIDOf mv) respNode.content st).1)).kind = 4 := by
      rw [setMapValueFirst_kind]; exact h2
    have hr1 : getMapValue (setMapValueFirst mv "responses"
        (respNode.setContent
          (processResponses p m (operationIDOf mv) respNode.content st).1)) "responses" =
        some (respNode.setContent
          (processResponses p m (operationIDOf mv) respNode.content st).1) :=
      getMapValue_setMapValueFirst_self mv "responses" _ respNode hresp
    have hrk1 : (respNode.setContent
        (processResponses p m (operationIDOf mv) respNode.content st).1).kind = 4 := by
      rw [Node.setContent_kind]; exact h3
    simp only [processOperation, h1, not_true_eq_false, if_false, hk1, hr1, hrk1,
      Node.setContent_content, Node.setContent_setContent, ne_eq, not_false_eq_true,
      if_true]
    rw [processResponses_stable p m (operationIDOf mv) respNode.content st p2 m _ st2]
    rw [setMapValueFirst_eq_of_lookup _ "responses" _ hr1]
    simp

/-- The operations loop is inert on its own output. -/
theorem processOps_stable (p : String) (l : List Node) :
    ∀ st p2 st2,
      processOps p2 (processOps p l st).1 st2 = ((processOps p l st).1, st2, false) := by
  induction l using pairInduction with
  | h0 => intro st p2 st2; rfl
  | h1 a => intro st p2 st2; rfl
  | h2 a b l ih =>
    intro st p2 st2
    simp only [processOps]
    rw [processOperation_stable p a.value b st p2 st2]
    rw [ih (processOperation p a.value b st).2.1 p2 st2]
    simp

/-- A processed path item is inert. -/
theorem processPathItem_stable (p : String) (pv : Node) (st : RState) :
    ∀ p2 st2, processPathItem p2 (processPathItem p pv st).1 st2 =
      ((processPathItem p pv st).1, st2, false) := by
  intro p2 st2
  by_cases h1 : pv.kind = 4
  case neg => simp [processPathItem, h1]
  have hpass1 : processPathItem p pv st =
      (pv.setContent (processOps p pv.content st).1,
       (processOps p pv.content st).2.1, (processOps p pv.content st).2.2) := by
    simp [processPathItem, h1]
  rw [hpass1]
  have hk1 : (pv.setContent (processOps p pv.content st).1).kind = 4 := by
    rw [Node.setContent_kind]; exact h1
  simp only [processPathItem, hk1, ne_eq, not_false_eq_true, if_true, not_true_eq_false,
    if_false, Node.setContent_content, Node.setContent_setContent]
  rw [processOps_stable p pv.content st p2 st2]

/-- The paths loop is inert on its own output. -/
theorem processPaths_stable (l : List Node) :
    ∀ st st2,
      processPaths (processPaths l st).1 st2 = ((processPaths l st).1, st2, false) := by
  induction l using pairInduction with
  | h0 => intro st st2; rfl
  | h1 a => intro st st2; rfl
  | h2 a b l ih =>
    intro st st2
    simp only [processPaths]
    rw [processPathItem_stable a.value b st a.value st2]
    rw [ih (processPathItem a.value b st).2.1 st2]
    simp

theorem ensureMapValueF_fst_kind (m : Node) (k : String) :
    (ensureMapValueF m k).1.kind = 4 := by
  cases m with
  | mk km tm vm cm =>
    by_cases hm : km = 4
    · subst hm
      simp only [ensureMapValueF, Node.kind, Node.tag, Node.value, Node.content, ne_eq,
        not_true_eq_false, if_false]
      cases hl : lookupMapContent k cm with
      | some v => simp [hl, Node.kind]
      | none => simp [hl, Node.setContent, Node.kind, Node.content]
    · simp [ensureMapValueF, Node.kind, Node.tag, Node.value, Node.content, hm,
        lookupMapContent, Node.setContent]

theorem ensureMapValueF_lookup (m : Node) (k : String)
    (heven : m.kind = 4 → m.content.length % 2 = 0) :
    getMapValue (ensureMapValueF m k).1 k = some (ensureMapValueF m k).2 := by
  cases m with
  | mk km tm vm cm =>
    by_cases hm : km = 4
    · subst hm
      have hce : cm.length % 2 = 0 := heven rfl
      simp only [ensureMapValueF, Node.kind, Node.tag, Node.value, Node.content, ne_eq,
        not_true_eq_false, if_false]
      cases hl : lookupMapContent k cm with
      | some v => simp [hl, getMapValue, Node.kind, Node.content]
      | none =>
        simp only [hl, getMapValue, Node.setContent, Node.kind, Node.content, if_pos]
        exact lookupMapContent_append_self k _ cm hce hl
    · simp [ensureMapValueF, Node.kind, Node.tag, Node.value, Node.content, hm,
        lookupMapContent, Node.setContent, getMapValue, scalarNode]

theorem ensureMapValueF_found (m : Node) (k : String) (v : Node)
    (hk : m.kind = 4) (h : lookupMapContent k m.content = some v) :
    ensureMapValueF m k = (m, v) := by
  cases m with
  | mk km tm vm cm =>
    simp only [Node.kind] at hk
    subst hk
    simp only [Node.content] at h
    simp [ensureMapValueF, Node.kind, Node.content, h]

theorem newSchemaRegistry_schemas (s : Node) : (newSchemaRegistry s).schemas = s := rfl

/-! ### Claim C1: idempotence of the whole transform -/

/-- Claim C1: on every document on which RefactorInlineResponseSchemas
succeeds, a second run on the resulting document succeeds with
changed = false and returns the document unchanged.  The two evenness
hypotheses say that the top-level mapping and an existing components value
have properly paired key/value content, which is true of every parsed YAML
mapping (on a stray odd-length mapping the Go walker would panic rather
than succeed, so the claim is about evenly paired documents). -/
theorem claim_C1_idempotent (root root1 : Node) (c : Bool)
    (heventop : ∀ top rest, root.content = top :: rest →
      top.content.length % 2 = 0)
    (hevencomps : ∀ top rest, root.content = top :: rest →
      (ensureMapValueF top "components").2.kind = 4 →
      (ensureMapValueF top "components").2.content.length % 2 = 0)
    (h : RefactorInlineResponseSchemas root = .ok (root1, c)) :
    RefactorInlineResponseSchemas root1 = .ok (root1, false) := by
  unfold RefactorInlineResponseSchemas at h ⊢
  unfold refactorWith at h
  cases hcont : root.content with
  | nil => rw [hcont] at h; exact absurd h (by simp)
  | cons top restDoc =>
    rw [hcont] at h
    have heven1 : top.content.length % 2 = 0 := heventop top restDoc hcont
    have heven2 := hevencomps top restDoc hcont
    by_cases hk : root.kind = 1
    case neg => simp [hk] at h
    by_cases ht : top.kind = 4
    case neg => simp [hk, ht] at h
    simp only [hk, ht, ne_eq, not_true_eq_false, if_false, reduceCtorEq] at h
    cases hp : getMapValue (ensureMapValueF top "components").1 "paths" with
    | none => rw [hp] at h; exact absurd h (by simp)
    | some pathsNode =>
      rw [hp] at h
      by_cases hpk : pathsNode.kind = 4
      case neg => simp [hpk] at h
      simp only [hpk, ne_eq, not_true_eq_false, if_false, Except.ok.injEq,
        Prod.mk.injEq] at h
      obtain ⟨hroot1, hc⟩ := h
      subst hroot1
      -- abbreviations for the first-pass pieces
      set comps := (ensureMapValueF top "components").2 with hcompsdef
      set top1 := (ensureMapValueF top "components").1 with htop1def
      set comps1 := (ensureMapValueF comps "schemas").1 with hcomps1def
      set schemas0 := (ensureMapValueF comps "schemas").2 with hschemas0def
      set R := processPaths pathsNode.content (newSchemaRegistry schemas0) with hRdef
      set pathsNode1 := pathsNode.setContent R.1 with hpaths1def
      set comps2 := setMapValueFirst comps1 "schemas" R.2.1.schemas with hcomps2def
      set top2 := setMapValueFirst top1 "paths" pathsNode1 with htop2def
      set top3 := setMapValueFirst top2 "components" comps2 with htop3def
      -- first-pass lookup facts
      have htop1k : top1.kind = 4 := ensureMapValueF_fst_kind top "components"
      have hcomps1k : comps1.kind = 4 := ensureMapValueF_fst_kind comps "schemas"
      have hf1 : getMapValue top1 "components" = some comps :=
        ensureMapValueF_lookup top "components" (fun _ => heven1)
      have hf2 : getMapValue comps1 "schemas" = some schemas0 :=
        ensureMapValueF_lookup comps "schemas" heven2
      -- second-pass node facts
      have htop3k : top3.kind = 4 := by
        rw [htop3def, setMapValueFirst_kind, htop2def, setMapValueFirst_kind]
        exact htop1k
      have hg1 : getMapValue top3 "components" = some comps2 := by
        rw [htop3def]
        refine getMapValue_setMapValueFirst_self top2 "components" comps2 comps ?_
        rw [htop2def, getMapValue_setMapValueFirst_ne top1 "paths" "components" pathsNode1
          (by decide)]
        exact hf1
      have hg2 : getMapValue comps2 "schemas" = some R.2.1.schemas := by
        rw [hcomps2def]
        exact getMapValue_setMapValueFirst_self comps1 "schemas" R.2.1.schemas schemas0 hf2
      have hcomps2k : comps2.kind = 4 := by
        rw [hcomps2def, setMapValueFirst_kind]; exact hcomps1k
      have hg3 : getMapValue top3 "paths" = some pathsNode1 := by
        rw [htop3def, getMapValue_setMapValueFirst_ne top2 "components" "paths" comps2
          (by decide), htop2def]
        exact getMapValue_setMapValueFirst_self top1 "paths" pathsNode1 pathsNode hp
      have hpaths1k : pathsNode1.kind = 4 := by
        rw [hpaths1def, Node.setContent_kind]; exact hpk
      have hE1p : ensureMapValueF top3 "components" = (top3, comps2) :=
        ensureMapValueF_found top3 "components" comps2 htop3k
          (by rw [← getMapValue_eq_lookup top3 "components" htop3k]; exact hg1)
      have hE2p : ensureMapValueF comps2 "schemas" = (comps2, R.2.1.schemas) :=
        ensureMapValueF_found comps2 "schemas" R.2.1.schemas hcomps2k
          (by rw [← getMapValue_eq_lookup comps2 "schemas" hcomps2k]; exact hg2)
      have hstab : processPaths pathsNode1.content
          (newSchemaRegistry R.2.1.schemas) = (R.1, newSchemaRegistry R.2.1.schemas, false) := by
        rw [hpaths1def, Node.setContent_content, hRdef]
        exact processPaths_stable pathsNode.content (newSchemaRegistry schemas0)
          (newSchemaRegistry (processPaths pathsNode.content
            (newSchemaRegistry schemas0)).2.1.schemas)
      -- compute the second pass
      unfold refactorWith
      simp only [Node.kind_mk, Node.tag_mk, Node.value_mk, Node.content_mk, ne_eq,
        not_true_eq_false, if_false, reduceIte, htop3k, hpaths1k, hE1p, hE2p,
        newSchemaRegistry_schemas, hg3, hstab]
      rw [setMapValueFirst_eq_of_lookup comps2 "schemas" R.2.1.schemas hg2]
      have hpp : pathsNode1.setContent R.1 = pathsNode1 := by
        rw [hpaths1def, Node.setContent_setContent]
      rw [hpp]
      rw [setMapValueFirst_eq_of_lookup top3 "paths" pathsNode1 hg3]
      rw [setMapValueFirst_eq_of_lookup top3 "components" comps2 hg1]

theorem claim_C1_witness :
    ((∀ top rest, docPlainA.content = top :: rest → top.content.length % 2 = 0) ∧
     (∀ top rest, docPlainA.content = top :: rest →
       (ensureMapValueF top "components").2.kind = 4 →
       (ensureMapValueF top "components").2.content.length % 2 = 0) ∧
     RefactorInlineResponseSchemas docPlainA = .ok (docPlainAOut, true)) ∧
    RefactorInlineResponseSchemas docPlainAOut = .ok (docPlainAOut, false) := by
  have h1 : ∀ top rest, docPlainA.content = top :: rest →
      top.content.length % 2 = 0 := by
    intro top rest h
    have hc : docPlainA.content = [docPlainATop] := rfl
    rw [hc] at h
    injection h with htop hrest
    subst htop
    decide
  have h2 : ∀ top rest, docPlainA.content = top :: rest →
      (ensureMapValueF top "components").2.kind = 4 →
      (ensureMapValueF top "components").2.content.length % 2 = 0 := by
    intro top rest h
    have hc : docPlainA.content = [docPlainATop] := rfl
    rw [hc] at h
    injection h with htop hrest
    subst htop
    intro hk4
    decide
  have h3 : RefactorInlineResponseSchemas docPlainA = .ok (docPlainAOut, true) := rfl
  exact ⟨⟨h1, h2, h3⟩, claim_C1_idempotent docPlainA docPlainAOut true h1 h2 h3⟩

/-! ### Representation independence of the registry -/

theorem lookupFp_cons (fp nm q : String) (l : List (String × String)) :
    lookupFp ((fp, nm) :: l) q = if fp = q then some nm else lookupFp l q := by
  by_cases h : fp = q
  · simp [lookupFp, List.find?_cons, h]
  · simp [lookupFp, List.find?_cons, h]

theorem mem_insertName (x n : String) (l : List String) :
    n ∈ insertName x l ↔ n = x ∨ n ∈ l := by
  by_cases hx : x ∈ l
  · have hc : insertName x l = l := by simp [insertName, hx]
    rw [hc]
    constructor
    · exact Or.inr
    · rintro (rfl | hn)
      · exact hx
      · exact hn
  · have hc : insertName x l = x :: l := by simp [insertName, hx]
    rw [hc, List.mem_cons]

theorem nodup_insertName (x : String) (l : List String) (h : l.Nodup) :
    (insertName x l).Nodup := by
  by_cases hx : x ∈ l
  · have hc : insertName x l = l := by simp [insertName, hx]
    rw [hc]; exact h
  · have hc : insertName x l = x :: l := by simp [insertName, hx]
    rw [hc]
    exact List.nodup_cons.2 ⟨hx, h⟩

theorem uniqueLoop_congr (names1 names2 : List String) (base : String)
    (hm : ∀ n, n ∈ names1 ↔ n ∈ names2) :
    ∀ fuel i, uniqueLoop names1 base fuel i = uniqueLoop names2 base fuel i := by
  intro fuel
  induction fuel with
  | zero => intro i; rfl
  | succ f ih =>
    intro i
    have hcc : names1.contains (candName base i) = names2.contains (candName base i) := by
      by_cases h : candName base i ∈ names1
      · have h2 : candName base i ∈ names2 := (hm _).1 h
        simp [h, h2]
      · have h2 : candName base i ∉ names2 := fun hx => h ((hm _).2 hx)
        simp [h, h2]
    simp only [uniqueLoop, hcc]
    by_cases h : candName base i ∈ names2
    · simp [h, ih]
    · simp [h]

theorem stEquiv_length (st1 st2 : RState) (h : StEquiv st1 st2) :
    st1.names.length = st2.names.length :=
  ((List.perm_ext_iff_of_nodup h.2.1 h.2.2.1).2 h.2.2.2.1).length_eq

theorem ensureUniqueName_congr (st1 st2 : RState) (base fp : String)
    (h : StEquiv st1 st2) :
    ensureUniqueName st1 base fp = ensureUniqueName st2 base fp := by
  have hul := uniqueLoop_congr st1.names st2.names base h.2.2.2.1
  have hlen := stEquiv_length st1 st2 h
  unfold ensureUniqueName
  rw [h.1, hlen]
  cases hg : getMapValue st2.schemas base with
  | some ex =>
    by_cases hf : schemaFingerprint ex = fp
    · simp [hf]
    · simp [hf, hul _ 1]
  | none => exact hul _ 1

theorem stEquiv_insert (st1 st2 : RState) (h : StEquiv st1 st2)
    (name fp : String) (cl : Node) :
    StEquiv
      ⟨appendMapEntry st1.schemas name cl, (fp, name) :: st1.byFp,
        insertName name st1.names⟩
      ⟨appendMapEntry st2.schemas name cl, (fp, name) :: st2.byFp,
        insertName name st2.names⟩ := by
  obtain ⟨hs, hn1, hn2, hm, hf⟩ := h
  refine ⟨by rw [hs], nodup_insertName _ _ hn1, nodup_insertName _ _ hn2, ?_, ?_⟩
  · intro n
    rw [mem_insertName, mem_insertName, hm n]
  · intro q
    rw [lookupFp_cons, lookupFp_cons, hf q]

theorem componentizeSchemaCore_congr (s : Node) (hint : String) (st1 st2 : RState)
    (h : StEquiv st1 st2) :
    CResEquiv (componentizeSchemaCore s hint st1) (componentizeSchemaCore s hint st2) := by
  by_cases hk : s.kind = 4
  case neg =>
    simp only [componentizeSchemaCore, hk, ne_eq, not_false_eq_true, if_true]
    exact ⟨rfl, h, rfl, rfl⟩
  by_cases hr : isRefOnlySchema s = true
  case pos =>
    simp only [componentizeSchemaCore, hk, ne_eq, not_true_eq_false, if_false, hr, if_true]
    exact ⟨rfl, h, rfl, rfl⟩
  have hlf := h.2.2.2.2 (schemaFingerprint s)
  simp only [componentizeSchemaCore, hk, ne_eq, not_true_eq_false, if_false,
    Bool.not_eq_true] at hr ⊢
  simp only [hr, Bool.false_eq_true, if_false]
  cases hl : lookupFp st2.byFp (schemaFingerprint s) with
  | some nm =>
    rw [hl] at hlf
    rw [hlf]
    exact ⟨rfl, h, rfl, rfl⟩
  | none =>
    rw [hl] at hlf
    rw [hlf]
    have hname := ensureUniqueName_congr st1 st2
      (if hint = "" then "InlineSchema" else hint) (schemaFingerprint s) h
    refine ⟨by rw [hname], ?_, hname, rfl⟩
    rw [hname]
    exact stEquiv_insert st1 st2 h _ _ _

theorem plainRewrite_congr (p m o s2 : String) (s : Node) (st1 st2 : RState)
    (h : StEquiv st1 st2) :
    ResEquiv (plainRewrite p m o s2 s st1) (plainRewrite p m o s2 s st2) := by
  have hc := componentizeSchemaCore_congr s (deriveResponseSchemaNameHint p m o s2) st1 st2 h
  exact ⟨hc.1, hc.2.1, hc.2.2.2⟩

theorem handleAlternativesPattern_congr (p m o s2 : String) (schemaNode baseNode : Node)
    (st1 st2 : RState) (h : StEquiv st1 st2) :
    ResEquiv (handleAlternativesPattern p m o s2 schemaNode baseNode st1)
      (handleAlternativesPattern p m o s2 schemaNode baseNode st2) := by
  by_cases hb : deriveSchemaName o = ""
  · simp only [handleAlternativesPattern, hb, if_true]
    have hc := componentizeSchemaCore_congr schemaNode
      (deriveResponseSchemaNameHint p m o s2) st1 st2 h
    exact ⟨hc.1, hc.2.1, hc.2.2.2⟩
  · have hq1 : getMapValue st1.schemas (deriveSchemaName o) =
        getMapValue st2.schemas (deriveSchemaName o) := by rw [h.1]
    cases h1 : getMapValue st2.schemas (deriveSchemaName o) with
    | some ex =>
      have hq2 : getMapValue st1.schemas (deriveSchemaName o ++ "WithAlternatives") =
          getMapValue st2.schemas (deriveSchemaName o ++ "WithAlternatives") := by
        rw [h.1]
      cases h2 : getMapValue st2.schemas (deriveSchemaName o ++ "WithAlternatives") with
      | some ex2 =>
        simp only [handleAlternativesPattern, hb, if_false, hq1, h1, hq2, h2]
        exact ⟨rfl, h, rfl⟩
      | none =>
        simp only [handleAlternativesPattern, hb, if_false, hq1, h1, hq2, h2]
        exact ⟨rfl, stEquiv_insert st1 st2 h _ _ _, rfl⟩
    | none =>
      have hs' := stEquiv_insert st1 st2 h (deriveSchemaName o)
        (schemaFingerprint (cloneNode baseNode)) (cloneNode baseNode)
      have hq2 : getMapValue (appendMapEntry st1.schemas (deriveSchemaName o)
            (cloneNode baseNode)) (deriveSchemaName o ++ "WithAlternatives") =
          getMapValue (appendMapEntry st2.schemas (deriveSchemaName o)
            (cloneNode baseNode)) (deriveSchemaName o ++ "WithAlternatives") := by
        rw [h.1]
      cases h2 : getMapValue (appendMapEntry st2.schemas (deriveSchemaName o)
          (cloneNode baseNode)) (deriveSchemaName o ++ "WithAlternatives") with
      | some ex2 =>
        simp only [handleAlternativesPattern, hb, if_false, hq1, h1, hq2, h2]
        exact ⟨rfl, hs', rfl⟩
      | none =>
        simp only [handleAlternativesPattern, hb, if_false, hq1, h1, hq2, h2]
        exact ⟨rfl, stEquiv_insert _ _ hs' _ _ _, rfl⟩

theorem dispatchSchema_congr (p m o s2 : String) (schemaNode : Node) (st1 st2 : RState)
    (h : StEquiv st1 st2) :
    ResEquiv (dispatchSchema p m o s2 schemaNode st1)
      (dispatchSchema p m o s2 schemaNode st2) := by
  rcases dispatchSchema_cases p m o s2 schemaNode with ⟨b, he⟩ | he
  · rw [he st1, he st2]
    exact handleAlternativesPattern_congr p m o s2 schemaNode b st1 st2 h
  · rw [he st1, he st2]
    exact plainRewrite_congr p m o s2 schemaNode st1 st2 h

theorem processResponseSchema_congr (p m o s2 : String) (n : Node) (st1 st2 : RState)
    (h : StEquiv st1 st2) :
    ResEquiv (processResponseSchema p m o s2 n st1)
      (processResponseSchema p m o s2 n st2) := by
  rcases processResponseSchema_cases n with
    hL | ⟨cN, ct, aJ, sN, hk, hc, hck, hsel, hak, hs, hsk, href, hR⟩
  · rw [hL p m o s2 st1, hL p m o s2 st2]
    exact ⟨rfl, h, rfl⟩
  · rw [hR p m o s2 st1, hR p m o s2 st2]
    have hd := dispatchSchema_congr p m o s2 sN st1 st2 h
    exact ⟨by rw [hd.1], hd.2.1, hd.2.2⟩

theorem processResponses_congr (p m o : String) (l : List Node) :
    ∀ st1 st2, StEquiv st1 st2 →
      ResLEquiv (processResponses p m o l st1) (processResponses p m o l st2) := by
  induction l using pairInduction with
  | h0 => intro st1 st2 h; exact ⟨rfl, h, rfl⟩
  | h1 a => intro st1 st2 h; exact ⟨rfl, h, rfl⟩
  | h2 a b l ih =>
    intro st1 st2 h
    have h1 := processResponseSchema_congr p m o a.value b st1 st2 h
    have h2 := ih _ _ h1.2.1
    simp only [processResponses]
    exact ⟨by rw [h1.1, h2.1], h2.2.1, by rw [h1.2.2, h2.2.2]⟩

theorem processOperation_congr (p m : String) (mv : Node) (st1 st2 : RState)
    (h : StEquiv st1 st2) :
    ResEquiv (processOperation p m mv st1) (processOperation p m mv st2) := by
  by_cases h1 : m ∈ httpMethodList
  case neg =>
    simp [processOperation, h1]
    exact ⟨rfl, h, rfl⟩
  by_cases h2 : mv.kind = 4
  case neg =>
    simp [processOperation, h1, h2]
    exact ⟨rfl, h, rfl⟩
  cases hresp : getMapValue mv "responses" with
  | none =>
    simp [processOperation, h1, h2, hresp]
    exact ⟨rfl, h, rfl⟩
  | some respNode =>
    by_cases h3 : respNode.kind = 4
    case neg =>
      simp [processOperation, h1, h2, hresp, h3]
      exact ⟨rfl, h, rfl⟩
    have hr := processResponses_congr p m (operationIDOf mv) respNode.content st1 st2 h
    simp only [processOperation, h1, h2, hresp, h3]
    simp [h1, h2, hresp, h3]
    exact ⟨by rw [hr.1], hr.2.1, by rw [hr.2.2]⟩

theorem processOps_congr (p : String) (l : List Node) :
    ∀ st1 st2, StEquiv st1 st2 →
      ResLEquiv (processOps p l st1) (processOps p l st2) := by
  induction l using pairInduction with
  | h0 => intro st1 st2 h; exact ⟨rfl, h, rfl⟩
  | h1 a => intro st1 st2 h; exact ⟨rfl, h, rfl⟩
  | h2 a b l ih =>
    intro st1 st2 h
    have h1 := processOperation_congr p a.value b st1 st2 h
    have h2 := ih _ _ h1.2.1
    simp only [processOps]
    exact ⟨by rw [h1.1, h2.1], h2.2.1, by rw [h1.2.2, h2.2.2]⟩

theorem processPathItem_congr (p : String) (pv : Node) (st1 st2 : RState)
    (h : StEquiv st1 st2) :
    ResEquiv (processPathItem p pv st1) (processPathItem p pv st2) := by
  by_cases h1 : pv.kind = 4
  case neg =>
    simp [processPathItem, h1]
    exact ⟨rfl, h, rfl⟩
  have hr := processOps_congr p pv.content st1 st2 h
  simp [processPathItem, h1]
  exact ⟨by rw [hr.1], hr.2.1, by rw [hr.2.2]⟩

theorem processPaths_congr (l : List Node) :
    ∀ st1 st2, StEquiv st1 st2 →
      ResLEquiv (processPaths l st1) (processPaths l st2) := by
  induction l using pairInduction with
  | h0 => intro st1 st2 h; exact ⟨rfl, h, rfl⟩
  | h1 a => intro st1 st2 h; exact ⟨rfl, h, rfl⟩
  | h2 a b l ih =>
    intro st1 st2 h
    have h1 := processPathItem_congr a.value b st1 st2 h
    have h2 := ih _ _ h1.2.1
    simp only [processPaths]
    exact ⟨by rw [h1.1, h2.1], h2.2.1, by rw [h1.2.2, h2.2.2]⟩

theorem stEquiv_symm (st1 st2 : RState) (h : StEquiv st1 st2) : StEquiv st2 st1 :=
  ⟨h.1.symm, h.2.2.1, h.2.1, fun n => (h.2.2.2.1 n).symm, fun q => (h.2.2.2.2 q).symm⟩

theorem seedRegistry_nodup : ∀ (l : List Node)
    (acc : List (String × String) × List String),
    acc.2.Nodup → (seedRegistry l acc).2.Nodup := by
  intro l
  induction l using pairInduction with
  | h0 => intro acc h; exact h
  | h1 a => intro acc h; exact h
  | h2 a b l ih =>
    intro acc h
    simp only [seedRegistry]
    exact ih _ (nodup_insertName a.value acc.2 h)

theorem newSchemaRegistry_names_nodup (s : Node) :
    (newSchemaRegistry s).names.Nodup := by
  unfold newSchemaRegistry
  by_cases hk : s.kind = 4
  · simp only [hk, if_true]
    exact seedRegistry_nodup s.content ([], []) List.nodup_nil
  · simp [hk]

theorem stEquiv_refl_seed (s : Node) : StEquiv (newSchemaRegistry s) (newSchemaRegistry s) :=
  ⟨rfl, newSchemaRegistry_names_nodup s, newSchemaRegistry_names_nodup s,
   fun _ => Iff.rfl, fun _ => rfl⟩

/-! ### Claim C9: determinism -/

/-- Claim C9: RefactorInlineResponseSchemas is a deterministic function of
the input tree with no dependence on map iteration order or other
nondeterminism: running the transform with any registry implementation
whose name set and fingerprint table are observationally equal to the
map-based one (same membership, same lookups, in any internal order)
produces an identical result, document and changed flag included.  Two
independent runs on a fixed document therefore produce identical output. -/
theorem claim_C9_determinism (root : Node) (mkReg : Node → RState)
    (h : ∀ s, StEquiv (newSchemaRegistry s) (mkReg s)) :
    refactorWith root mkReg = RefactorInlineResponseSchemas root := by
  unfold RefactorInlineResponseSchemas refactorWith
  cases hcont : root.content with
  | nil => rfl
  | cons top restDoc =>
    by_cases hk : root.kind = 1
    case neg => simp [hk]
    by_cases ht : top.kind = 4
    case neg => simp [hk, ht]
    simp only [hk, ht, ne_eq, not_true_eq_false, if_false]
    cases hp : getMapValue (ensureMapValueF top "components").1 "paths" with
    | none => rfl
    | some pathsNode =>
      by_cases hpk : pathsNode.kind = 4
      case neg => simp [hpk]
      simp only [hpk, ne_eq, not_true_eq_false, if_false]
      have hr := processPaths_congr pathsNode.content
        (mkReg (ensureMapValueF (ensureMapValueF top "components").2 "schemas").2)
        (newSchemaRegistry (ensureMapValueF (ensureMapValueF top "components").2 "schemas").2)
        (stEquiv_symm _ _ (h _))
      rw [hr.1, hr.2.1.1, hr.2.2]

theorem claim_C9_witness :
    (∀ s, StEquiv (newSchemaRegistry s) (newSchemaRegistry s)) ∧
    refactorWith docPlainA newSchemaRegistry = RefactorInlineResponseSchemas docPlainA :=
  ⟨fun s => stEquiv_refl_seed s,
   claim_C9_determinism docPlainA newSchemaRegistry (fun s => stEquiv_refl_seed s)⟩

/-! ### Claim C4: name-collision safety -/

/- Decimal representation facts used to separate the suffixed candidate
names baseN of ensureUniqueName. -/

theorem toDigitsCore_append : ∀ (fuel n : Nat) (acc : List Char),
    Nat.toDigitsCore 10 fuel n acc = Nat.toDigitsCore 10 fuel n [] ++ acc := by
  intro fuel
  induction fuel with
  | zero => intro n acc; rfl
  | succ f ih =>
    intro n acc
    simp only [Nat.toDigitsCore]
    by_cases h : n / 10 = 0
    · simp [h]
    · simp only [h, if_false]
      rw [ih (n / 10) [Nat.digitChar (n % 10)], ih (n / 10) (Nat.digitChar (n % 10) :: acc)]
      simp

theorem toDigitsCore_fuel : ∀ (n f1 f2 : Nat), n < f1 → n < f2 →
    Nat.toDigitsCore 10 f1 n [] = Nat.toDigitsCore 10 f2 n [] := by
  intro n
  induction n using Nat.strong_induction_on with
  | _ n ih =>
    intro f1 f2 h1 h2
    match f1, h1 with
    | fa + 1, h1 =>
      match f2, h2 with
      | fb + 1, h2 =>
        simp only [Nat.toDigitsCore]
        by_cases h : n / 10 = 0
        · simp [h]
        · simp only [h, if_false]
          have hlt : n / 10 < n := Nat.div_lt_self (Nat.pos_of_ne_zero (by
            intro hn; rw [hn] at h; exact h (by norm_num))) (by norm_num)
          rw [toDigitsCore_append fa (n / 10), toDigitsCore_append fb (n / 10)]
          rw [ih (n / 10) hlt fa fb (by omega) (by omega)]

theorem toDigits_step (n : Nat) :
    Nat.toDigits 10 n =
      (if n / 10 = 0 then [Nat.digitChar (n % 10)]
       else Nat.toDigits 10 (n / 10) ++ [Nat.digitChar (n % 10)]) := by
  have h0 : Nat.toDigits 10 n =
      (if n / 10 = 0 then [Nat.digitChar (n % 10)]
       else Nat.toDigitsCore 10 n (n / 10) [Nat.digitChar (n % 10)]) := rfl
  rw [h0]
  by_cases h : n / 10 = 0
  · simp [h]
  · simp only [h, if_false]
    have hlt : n / 10 < n := Nat.div_lt_self (Nat.pos_of_ne_zero (by
      intro hn; rw [hn] at h; exact h (by norm_num))) (by norm_num)
    rw [toDigitsCore_append n (n / 10) [Nat.digitChar (n % 10)]]
    congr 1
    simp only [Nat.toDigits]
    exact toDigitsCore_fuel (n / 10) n (n / 10 + 1) hlt (Nat.lt_succ_self _)

theorem toDigits_ne_nil (n : Nat) : Nat.toDigits 10 n ≠ [] := by
  rw [toDigits_step n]
  by_cases h : n / 10 = 0
  · simp [h]
  · simp [h]

theorem digitChar_inj10 : ∀ a, a < 10 → ∀ b, b < 10 →
    Nat.digitChar a = Nat.digitChar b → a = b := by decide

theorem toDigits_inj : ∀ n m : Nat, Nat.toDigits 10 n = Nat.toDigits 10 m → n = m := by
  intro n
  induction n using Nat.strong_induction_on with
  | _ n ih =>
    intro m h
    rw [toDigits_step n, toDigits_step m] at h
    by_cases hn : n / 10 = 0
    · by_cases hm : m / 10 = 0
      · simp only [hn, hm, if_true, List.cons.injEq] at h
        have := digitChar_inj10 (n % 10) (Nat.mod_lt n (by norm_num)) (m % 10)
          (Nat.mod_lt m (by norm_num)) h.1
        omega
      · simp only [hn, hm, if_true, if_false] at h
        have hlen := congrArg List.length h
        simp only [List.length_cons, List.length_append, List.length_nil] at hlen
        have hpos : 0 < (Nat.toDigits 10 (m / 10)).length :=
          List.length_pos.2 (toDigits_ne_nil (m / 10))
        omega
    · by_cases hm : m / 10 = 0
      · simp only [hn, hm, if_true, if_false] at h
        have hlen := congrArg List.length h
        simp only [List.length_cons, List.length_append, List.length_nil] at hlen
        have hpos : 0 < (Nat.toDigits 10 (n / 10)).length :=
          List.length_pos.2 (toDigits_ne_nil (n / 10))
        omega
      · simp only [hn, hm, if_false] at h
        have h2 := List.append_inj' h (by simp)
        have hlt : n / 10 < n := Nat.div_lt_self (Nat.pos_of_ne_zero (by
          intro hx; rw [hx] at hn; exact hn (by norm_num))) (by norm_num)
        have hdiv := ih (n / 10) hlt (m / 10) h2.1
        have hmod : n % 10 = m % 10 := by
          have h3 := h2.2
          simp only [List.cons.injEq] at h3
          exact digitChar_inj10 (n % 10) (Nat.mod_lt n (by norm_num)) (m % 10)
            (Nat.mod_lt m (by norm_num)) h3.1
        omega

theorem natRepr_data (n : Nat) : (Nat.repr n).data = Nat.toDigits 10 n := rfl

/-- The candidates base, base2, base3, ... of the ensureUniqueName loop are
pairwise distinct. -/
theorem candName_inj (base : String) (i j : Nat)
    (h : candName base i = candName base j) : i = j := by
  unfold candName at h
  by_cases hi1 : i = 1 <;> by_cases hj1 : j = 1
  · omega
  · exfalso
    simp only [hi1, hj1, if_true, if_false] at h
    have hd := congrArg String.data h
    rw [String.data_append] at hd
    have hlen := congrArg List.length hd
    rw [List.length_append] at hlen
    have hne : (Nat.repr j).data ≠ [] := by
      rw [natRepr_data]; exact toDigits_ne_nil j
    have : 0 < (Nat.repr j).data.length := List.length_pos.2 hne
    omega
  · exfalso
    simp only [hi1, hj1, if_true, if_false] at h
    have hd := congrArg String.data h
    rw [String.data_append] at hd
    have hlen := congrArg List.length hd
    rw [List.length_append] at hlen
    have hne : (Nat.repr i).data ≠ [] := by
      rw [natRepr_data]; exact toDigits_ne_nil i
    have : 0 < (Nat.repr i).data.length := List.length_pos.2 hne
    omega
  · simp only [hi1, hj1, if_false] at h
    have hd := congrArg String.data h
    rw [String.data_append, String.data_append] at hd
    have h2 := List.append_cancel_left hd
    rw [natRepr_data, natRepr_data] at h2
    exact toDigits_inj i j h2

/-- If some candidate within the fuel bound is outside existingNames, the
loop returns a name outside existingNames. -/
theorem uniqueLoop_fresh (names : List String) (base : String) :
    ∀ (fuel i : Nat), (∃ t, t < fuel ∧ candName base (i + t) ∉ names) →
      uniqueLoop names base fuel i ∉ names := by
  intro fuel
  induction fuel with
  | zero => intro i h; exact absurd h (by simp)
  | succ f ih =>
    intro i h
    obtain ⟨t, htf, htn⟩ := h
    by_cases hc : candName base i ∈ names
    · have hres : uniqueLoop names base (f + 1) i = uniqueLoop names base f (i + 1) := by
        simp [uniqueLoop, hc]
      rw [hres]
      match t, htn with
      | 0, htn => exact absurd hc (by simpa using htn)
      | t' + 1, htn =>
        exact ih (i + 1) ⟨t', by omega, by rw [show i + 1 + t' = i + (t' + 1) by omega]; exact htn⟩
    · have hres : uniqueLoop names base (f + 1) i = candName base i := by
        simp [uniqueLoop, hc]
      rw [hres]; exact hc

/-- Pigeonhole: among names.length + 2 pairwise distinct candidates at
least one lies outside existingNames. -/
theorem exists_fresh_cand (names : List String) (base : String) (i : Nat) :
    ∃ t, t < names.length + 2 ∧ candName base (i + t) ∉ names := by
  by_contra hall
  push_neg at hall
  set C : List String := (List.range (names.length + 2)).map (fun t => candName base (i + t))
    with hCdef
  have hnd : C.Nodup := by
    refine List.Nodup.map_on ?_ (List.nodup_range _)
    intro x hx y hy hxy
    have := candName_inj base (i + x) (i + y) hxy
    omega
  have hsub : ∀ c ∈ C, c ∈ names := by
    intro c hc
    rw [hCdef] at hc
    simp only [List.mem_map, List.mem_range] at hc
    obtain ⟨t, ht, rfl⟩ := hc
    exact hall t ht
  have hlenC : C.length = names.length + 2 := by simp [hCdef]
  have hcard1 : C.toFinset.card = C.length := List.toFinset_card_of_nodup hnd
  have hcard2 : C.toFinset ⊆ names.toFinset := by
    intro c hc
    rw [List.mem_toFinset] at hc ⊢
    exact hsub c hc
  have hcard3 := Finset.card_le_card hcard2
  have hcard4 := names.toFinset_card_le
  omega

/-- The name chosen by the loop of ensureUniqueName is never an already
recorded name. -/
theorem uniqueLoop_fresh_total (names : List String) (base : String) :
    uniqueLoop names base (names.length + 2) 1 ∉ names :=
  uniqueLoop_fresh names base (names.length + 2) 1 (exists_fresh_cand names base 1)

/-- A free base name is taken unchanged by the loop. -/
theorem uniqueLoop_first (names : List String) (base : String) (fuel : Nat)
    (h : base ∉ names) : uniqueLoop names base (fuel + 1) 1 = base := by
  have hc : candName base 1 = base := rfl
  simp [uniqueLoop, hc, h]

theorem natRepr_two : Nat.repr 2 = "2" := rfl

/-- A taken base name falls through to base2 (no separator) when base2 is
free: the numeric suffixes start at 2. -/
theorem uniqueLoop_second (names : List String) (base : String) (fuel : Nat)
    (h1 : base ∈ names) (h2 : base ++ "2" ∉ names) :
    uniqueLoop names base (fuel + 2) 1 = base ++ "2" := by
  have hc1 : candName base 1 = base := rfl
  have hc2 : candName base 2 = base ++ "2" := by
    show (if (2 : Nat) = 1 then base else base ++ Nat.repr 2) = base ++ "2"
    rw [if_neg (by omega), natRepr_two]
  show uniqueLoop names base (fuel + 1 + 1) 1 = base ++ "2"
  rw [show uniqueLoop names base (fuel + 1 + 1) 1 =
      uniqueLoop names base (fuel + 1) 2 by simp [uniqueLoop, hc1, h1]]
  simp [uniqueLoop, hc2, h2]

/- Entry-level view of a mapping content list, used for the collision
invariant. -/

theorem entriesOf_append_even (k : String) (v : Node) : ∀ (l : List Node),
    l.length % 2 = 0 →
    entriesOf (l ++ [scalarNode k, v]) = entriesOf l ++ [(k, v)] := by
  intro l
  induction l using pairInduction with
  | h0 => intro h; rfl
  | h1 a => intro h; exact absurd h (by simp)
  | h2 a b l ih =>
    intro h
    show entriesOf (a :: b :: (l ++ [scalarNode k, v])) =
      ((a.value, b) :: entriesOf l) ++ [(k, v)]
    simp only [entriesOf]
    rw [ih (by simp only [List.length_cons] at h; omega)]
    simp

theorem lookupMapContent_none_entries (key : String) : ∀ (l : List Node),
    lookupMapContent key l = none → ∀ p ∈ entriesOf l, p.1 ≠ key := by
  intro l
  induction l using pairInduction with
  | h0 => intro h p hp; exact absurd hp (by simp [entriesOf])
  | h1 a => intro h p hp; exact absurd hp (by simp [entriesOf])
  | h2 a b l ih =>
    intro h p hp
    simp only [lookupMapContent] at h
    by_cases ha : a.value = key
    · rw [if_pos ha] at h; exact absurd h (by simp)
    · rw [if_neg ha] at h
      simp only [entriesOf, List.mem_cons] at hp
      rcases hp with rfl | hp
      · exact ha
      · exact ih h p hp

theorem lookupMapContent_some_entries (key : String) : ∀ (l : List Node) (v : Node),
    lookupMapContent key l = some v → (key, v) ∈ entriesOf l := by
  intro l
  induction l using pairInduction with
  | h0 => intro v h; exact absurd h (by simp [lookupMapContent])
  | h1 a => intro v h; exact absurd h (by simp [lookupMapContent])
  | h2 a b l ih =>
    intro v h
    simp only [lookupMapContent] at h
    by_cases ha : a.value = key
    · rw [if_pos ha] at h
      injection h with hv
      subst hv
      simp only [entriesOf, List.mem_cons]
      left
      rw [ha]
    · rw [if_neg ha] at h
      simp only [entriesOf, List.mem_cons]
      exact Or.inr (ih v h)

/-- Appending one entry preserves the no-distinct-duplicates property,
provided every existing entry under the same name has the fingerprint of
the new value. -/
theorem noDistinctDup_append (l : List Node) (key : String) (v : Node)
    (hev : l.length % 2 = 0) (hnd : NoDistinctDup l)
    (hmatch : ∀ q ∈ entriesOf l, q.1 = key →
      schemaFingerprint q.2 = schemaFingerprint v) :
    NoDistinctDup (l ++ [scalarNode key, v]) := by
  intro p hp q hq hpq
  rw [entriesOf_append_even key v l hev, List.mem_append] at hp hq
  rcases hp with hp | hp <;> rcases hq with hq | hq
  · exact hnd p hp q hq hpq
  · rw [List.mem_singleton] at hq
    subst hq
    exact hmatch p hp hpq
  · rw [List.mem_singleton] at hp
    subst hp
    exact (hmatch q hq hpq.symm).symm
  · rw [List.mem_singleton] at hp hq
    subst hp; subst hq; rfl

/-- ensureUniqueName either reuses the base name of an existing entry with
the same fingerprint, or returns a name outside existingNames. -/
theorem ensureUniqueName_cases (st : RState) (base fp : String) :
    (∃ existing, getMapValue st.schemas base = some existing ∧
      schemaFingerprint existing = fp ∧ ensureUniqueName st base fp = base) ∨
    ensureUniqueName st base fp ∉ st.names := by
  cases hg : getMapValue st.schemas base with
  | none =>
    right
    unfold ensureUniqueName
    simp only [hg]
    exact uniqueLoop_fresh_total st.names base
  | some e =>
    by_cases hfp : schemaFingerprint e = fp
    · left
      refine ⟨e, rfl, hfp, ?_⟩
      unfold ensureUniqueName
      simp only [hg, if_pos hfp]
    · right
      unfold ensureUniqueName
      simp only [hg, if_neg hfp]
      exact uniqueLoop_fresh_total st.names base

/-- Appending one entry to the registry preserves the collision invariant
when the new name either carries the fingerprint of the existing entry
under that name or is not recorded at all. -/
theorem RegInv_insert (st : RState) (s : Node) (nm fpv : String)
    (h : RegInv st)
    (hcase : (∃ existing, getMapValue st.schemas nm = some existing ∧
        schemaFingerprint existing = schemaFingerprint s) ∨ nm ∉ st.names ∨
        getMapValue st.schemas nm = none) :
    RegInv ⟨appendMapEntry st.schemas nm s, (fpv, nm) :: st.byFp,
            insertName nm st.names⟩ := by
  obtain ⟨hk4, hev, hnd, hkeys⟩ := h
  refine ⟨?_, ?_, ?_, ?_⟩
  · show (appendMapEntry st.schemas nm s).kind = 4
    rw [appendMapEntry_kind]; exact hk4
  · show (appendMapEntry st.schemas nm s).content.length % 2 = 0
    simp only [appendMapEntry, Node.setContent_content, List.length_append,
      List.length_cons, List.length_nil]
    omega
  · show NoDistinctDup (appendMapEntry st.schemas nm s).content
    simp only [appendMapEntry, Node.setContent_content]
    refine noDistinctDup_append st.schemas.content nm s hev hnd ?_
    intro q hq hqk
    rcases hcase with ⟨ex, hg, hfpe⟩ | hfresh | hnone
    · rw [getMapValue_eq_lookup st.schemas nm hk4] at hg
      have hmem := lookupMapContent_some_entries nm st.schemas.content ex hg
      exact (hnd q hq (nm, ex) hmem hqk).trans hfpe
    · exact absurd (hqk ▸ hkeys q hq) hfresh
    · rw [getMapValue_eq_lookup st.schemas nm hk4] at hnone
      exact absurd hqk (lookupMapContent_none_entries nm st.schemas.content hnone q hq)
  · show ∀ p ∈ entriesOf (appendMapEntry st.schemas nm s).content,
      p.1 ∈ insertName nm st.names
    intro p hp
    simp only [appendMapEntry, Node.setContent_content] at hp
    rw [entriesOf_append_even nm s st.schemas.content hev, List.mem_append] at hp
    rcases hp with hp | hp
    · exact (mem_insertName nm p.1 st.names).2 (Or.inr (hkeys p hp))
    · rw [List.mem_singleton] at hp
      subst hp
      exact (mem_insertName nm nm st.names).2 (Or.inl rfl)

/-- componentizeSchema preserves the collision invariant. -/
theorem componentizeSchemaCore_inv (s : Node) (hint : String) (st : RState)
    (h : RegInv st) : RegInv (componentizeSchemaCore s hint st).2.1 := by
  by_cases hk : s.kind = 4
  case neg =>
    have heq : componentizeSchemaCore s hint st = (s, st, "", false) := by
      unfold componentizeSchemaCore
      rw [if_pos hk]
    rw [heq]
    exact h
  by_cases hr : isRefOnlySchema s = true
  case pos =>
    have heq : componentizeSchemaCore s hint st = (s, st, "", false) := by
      unfold componentizeSchemaCore
      rw [if_neg (fun hc => hc hk), if_pos hr]
    rw [heq]
    exact h
  cases hf : lookupFp st.byFp (schemaFingerprint s) with
  | some n =>
    have heq : componentizeSchemaCore s hint st =
        (makeRefOnlySchema s n, st, n, true) := by
      unfold componentizeSchemaCore
      rw [if_neg (fun hc => hc hk), if_neg hr]
      simp only [hf]
    rw [heq]
    exact h
  | none =>
    unfold componentizeSchemaCore
    rw [if_neg (fun hc => hc hk), if_neg hr]
    simp only [hf, cloneNode]
    rcases ensureUniqueName_cases st (if hint = "" then "InlineSchema" else hint)
      (schemaFingerprint s) with ⟨ex, hg, hfpe, hname⟩ | hfresh
    · refine RegInv_insert st s _ (schemaFingerprint s) h (Or.inl ⟨ex, ?_, hfpe⟩)
      rw [hname]
      exact hg
    · exact RegInv_insert st s _ (schemaFingerprint s) h (Or.inr (Or.inl hfresh))

/-- The alternatives rewrite preserves the collision invariant: both of its
appends are guarded by a name-existence check. -/
theorem handleAlternativesPattern_inv (p m o s2 : String) (schemaNode baseNode : Node)
    (st : RState) (h : RegInv st) :
    RegInv (handleAlternativesPattern p m o s2 schemaNode baseNode st).2.1 := by
  by_cases hb : deriveSchemaName o = ""
  · simp only [handleAlternativesPattern, hb, if_true]
    exact componentizeSchemaCore_inv _ _ _ h
  · cases h1 : getMapValue st.schemas (deriveSchemaName o) with
    | some ex =>
      cases h2 : getMapValue st.schemas (deriveSchemaName o ++ "WithAlternatives") with
      | some ex2 =>
        simp only [handleAlternativesPattern, hb, if_false, h1, h2]
        exact h
      | none =>
        simp only [handleAlternativesPattern, hb, if_false, h1, h2]
        exact RegInv_insert st (buildCompositeSchema (deriveSchemaName o))
          (deriveSchemaName o ++ "WithAlternatives") _ h (Or.inr (Or.inr h2))
    | none =>
      have hstep1 : RegInv (⟨appendMapEntry st.schemas (deriveSchemaName o)
            (cloneNode baseNode),
          (schemaFingerprint (cloneNode baseNode), deriveSchemaName o) :: st.byFp,
          insertName (deriveSchemaName o) st.names⟩ : RState) :=
        RegInv_insert st (cloneNode baseNode) (deriveSchemaName o) _ h
          (Or.inr (Or.inr h1))
      cases h2 : getMapValue (appendMapEntry st.schemas (deriveSchemaName o)
          (cloneNode baseNode)) (deriveSchemaName o ++ "WithAlternatives") with
      | some ex2 =>
        simp only [handleAlternativesPattern, hb, if_false, h1, h2]
        exact hstep1
      | none =>
        simp only [handleAlternativesPattern, hb, if_false, h1, h2]
        exact RegInv_insert _ (buildCompositeSchema (deriveSchemaName o))
          (deriveSchemaName o ++ "WithAlternatives") _ hstep1 (Or.inr (Or.inr h2))

theorem dispatchSchema_inv (p m o s2 : String) (schemaNode : Node) (st : RState)
    (h : RegInv st) : RegInv (dispatchSchema p m o s2 schemaNode st).2.1 := by
  rcases dispatchSchema_cases p m o s2 schemaNode with ⟨b, he⟩ | he
  · rw [he st]
    exact handleAlternativesPattern_inv p m o s2 schemaNode b st h
  · rw [he st]
    have hc := componentizeSchemaCore_inv schemaNode
      (deriveResponseSchemaNameHint p m o s2) st h
    simpa [plainRewrite] using hc

theorem processResponseSchema_inv (p m o s2 : String) (n : Node) (st : RState)
    (h : RegInv st) : RegInv (processResponseSchema p m o s2 n st).2.1 := by
  rcases processResponseSchema_cases n with
    hL | ⟨cN, ct, aJ, sN, hk, hc, hck, hsel, hak, hs, hsk, href, hR⟩
  · rw [hL p m o s2 st]
    exact h
  · rw [hR p m o s2 st]
    exact dispatchSchema_inv p m o s2 sN st h

theorem processResponses_inv (p m o : String) (l : List Node) :
    ∀ st, RegInv st → RegInv (processResponses p m o l st).2.1 := by
  induction l using pairInduction with
  | h0 => intro st h; exact h
  | h1 a => intro st h; exact h
  | h2 a b l ih =>
    intro st h
    simp only [processResponses]
    exact ih _ (processResponseSchema_inv p m o a.value b st h)

theorem processOperation_inv (p m : String) (mv : Node) (st : RState)
    (h : RegInv st) : RegInv (processOperation p m mv st).2.1 := by
  by_cases h1 : m ∈ httpMethodList
  case neg =>
    simp [processOperation, h1]
    exact h
  by_cases h2 : mv.kind = 4
  case neg =>
    simp [processOperation, h1, h2]
    exact h
  cases hresp : getMapValue mv "responses" with
  | none =>
    simp [processOperation, h1, h2, hresp]
    exact h
  | some respNode =>
    by_cases h3 : respNode.kind = 4
    case neg =>
      simp [processOperation, h1, h2, hresp, h3]
      exact h
    simp only [processOperation, h1, h2, hresp, h3]
    simp [h1, h2, hresp, h3]
    exact processResponses_inv p m (operationIDOf mv) respNode.content st h

theorem processOps_inv (p : String) (l : List Node) :
    ∀ st, RegInv st → RegInv (processOps p l st).2.1 := by
  induction l using pairInduction with
  | h0 => intro st h; exact h
  | h1 a => intro st h; exact h
  | h2 a b l ih =>
    intro st h
    simp only [processOps]
    exact ih _ (processOperation_inv p a.value b st h)

theorem processPathItem_inv (p : String) (pv : Node) (st : RState)
    (h : RegInv st) : RegInv (processPathItem p pv st).2.1 := by
  by_cases h1 : pv.kind = 4
  case neg =>
    simp [processPathItem, h1]
    exact h
  simp [processPathItem, h1]
  exact processOps_inv p pv.content st h

theorem processPaths_inv (l : List Node) :
    ∀ st, RegInv st → RegInv (processPaths l st).2.1 := by
  induction l using pairInduction with
  | h0 => intro st h; exact h
  | h1 a => intro st h; exact h
  | h2 a b l ih =>
    intro st h
    simp only [processPaths]
    exact ih _ (processPathItem_inv a.value b st h)

/-- The seeding loop records every entry name (and keeps the accumulated
names). -/
theorem seedRegistry_mono_keys : ∀ (l : List Node)
    (acc : List (String × String) × List String),
    (∀ x, x ∈ acc.2 → x ∈ (seedRegistry l acc).2) ∧
    (∀ p ∈ entriesOf l, p.1 ∈ (seedRegistry l acc).2) := by
  intro l
  induction l using pairInduction with
  | h0 =>
    intro acc
    exact ⟨fun x hx => hx, fun p hp => absurd hp (by simp [entriesOf])⟩
  | h1 a =>
    intro acc
    exact ⟨fun x hx => hx, fun p hp => absurd hp (by simp [entriesOf])⟩
  | h2 a b l ih =>
    intro acc
    obtain ⟨bf, nms⟩ := acc
    constructor
    · intro x hx
      simp only [seedRegistry]
      exact (ih _).1 x ((mem_insertName a.value x nms).2 (Or.inr hx))
    · intro p hp
      simp only [seedRegistry]
      simp only [entriesOf, List.mem_cons] at hp
      rcases hp with rfl | hp
      · exact (ih _).1 a.value ((mem_insertName a.value a.value nms).2 (Or.inl rfl))
      · exact (ih _).2 p hp

/-- A well-formed pre-existing schemas mapping seeds a registry satisfying
the collision invariant. -/
theorem newSchemaRegistry_inv (sc : Node) (hk : sc.kind = 4)
    (hev : sc.content.length % 2 = 0) (hnd : NoDistinctDup sc.content) :
    RegInv (newSchemaRegistry sc) := by
  have hnames : (newSchemaRegistry sc).names = (seedRegistry sc.content ([], [])).2 := by
    simp only [newSchemaRegistry, hk, if_true]
  refine ⟨hk, hev, hnd, ?_⟩
  intro p hp
  rw [newSchemaRegistry_schemas] at hp
  rw [hnames]
  exact (seedRegistry_mono_keys sc.content ([], [])).2 p hp

theorem strAppend_two_ne (base : String) : base ++ "2" ≠ base := by
  intro h
  have hd := congrArg String.data h
  rw [String.data_append] at hd
  have hlen := congrArg List.length hd
  rw [List.length_append] at hlen
  have h1 : ("2" : String).data.length = 1 := rfl
  omega

/-- Two structurally distinct unregistered schemas componentized in
succession under the same free name hint: the first receives the base name
and the second base2. -/
theorem componentize_twice_base2 (st : RState) (s1 s2 : Node) (base : String)
    (hk4 : st.schemas.kind = 4) (hev : st.schemas.content.length % 2 = 0)
    (hg : getMapValue st.schemas base = none)
    (hn1 : base ∉ st.names) (hn2 : base ++ "2" ∉ st.names)
    (hbne : base ≠ "")
    (hs1k : s1.kind = 4) (hs1r : isRefOnlySchema s1 = false)
    (hs2k : s2.kind = 4) (hs2r : isRefOnlySchema s2 = false)
    (hfp : schemaFingerprint s1 ≠ schemaFingerprint s2)
    (hf1 : lookupFp st.byFp (schemaFingerprint s1) = none)
    (hf2 : lookupFp st.byFp (schemaFingerprint s2) = none) :
    (componentizeSchemaCore s1 base st).2.2.1 = base ∧
    (componentizeSchemaCore s2 base (componentizeSchemaCore s1 base st).2.1).2.2.1 =
      base ++ "2" := by
  have hname1 : ensureUniqueName st base (schemaFingerprint s1) = base := by
    unfold ensureUniqueName
    simp only [hg]
    exact uniqueLoop_first st.names base (st.names.length + 1) hn1
  have hr1 : componentizeSchemaCore s1 base st =
      (makeRefOnlySchema s1 base,
       ⟨appendMapEntry st.schemas base s1,
        (schemaFingerprint s1, base) :: st.byFp,
        insertName base st.names⟩, base, true) := by
    unfold componentizeSchemaCore
    rw [if_neg (fun hc => hc hs1k), if_neg (by simp [hs1r])]
    simp only [hf1, cloneNode, if_neg hbne, hname1]
  have hins : insertName base st.names = base :: st.names := by
    simp [insertName, hn1]
  have hlook2 : lookupFp ((schemaFingerprint s1, base) :: st.byFp)
      (schemaFingerprint s2) = none := by
    rw [lookupFp_cons, if_neg hfp]
    exact hf2
  have hgm2 : getMapValue (appendMapEntry st.schemas base s1) base = some s1 := by
    rw [getMapValue_eq_lookup _ base (by rw [appendMapEntry_kind]; exact hk4)]
    simp only [appendMapEntry, Node.setContent_content]
    exact lookupMapContent_append_self base s1 st.schemas.content hev
      (by rw [← getMapValue_eq_lookup st.schemas base hk4]; exact hg)
  have hname2 : ensureUniqueName
      ⟨appendMapEntry st.schemas base s1,
       (schemaFingerprint s1, base) :: st.byFp,
       insertName base st.names⟩ base (schemaFingerprint s2) = base ++ "2" := by
    unfold ensureUniqueName
    simp only [hgm2, if_neg (fun hc : schemaFingerprint s1 = schemaFingerprint s2 => hfp hc)]
    rw [hins]
    have hmem : base ∈ base :: st.names := List.mem_cons_self base st.names
    have hnot : base ++ "2" ∉ base :: st.names := by
      rw [List.mem_cons]
      rintro (hc | hc)
      · exact strAppend_two_ne base hc
      · exact hn2 hc
    exact uniqueLoop_second (base :: st.names) base (st.names.length + 1) hmem hnot
  have hr2 : componentizeSchemaCore s2 base
      (⟨appendMapEntry st.schemas base s1,
        (schemaFingerprint s1, base) :: st.byFp,
        insertName base st.names⟩ : RState) =
      (makeRefOnlySchema s2 (base ++ "2"),
       ⟨appendMapEntry (appendMapEntry st.schemas base s1) (base ++ "2") s2,
        (schemaFingerprint s2, base ++ "2") :: (schemaFingerprint s1, base) :: st.byFp,
        insertName (base ++ "2") (insertName base st.names)⟩, base ++ "2", true) := by
    unfold componentizeSchemaCore
    rw [if_neg (fun hc => hc hs2k), if_neg (by simp [hs2r])]
    simp only [hlook2, cloneNode, if_neg hbne, hname2]
  constructor
  · rw [hr1]
  · rw [hr1]
    rw [hr2]

/-- Claim C4 (name-collision safety, as amended): (1) the invariant part:
for every document whose top-level mapping, components value and
pre-existing components.schemas mapping are well-formed (evenly paired
mapping content, and no two structurally distinct pre-existing schemas
under one name, which yaml.v3 guarantees by rejecting duplicate mapping
keys), a successful run leaves components.schemas with no two structurally
distinct schemas stored under the same component name; the invariant
RegInv is maintained by every registry operation of the run.  (2) the
naming part: when the colliding base name is still free, two structurally
distinct unregistered schemas componentized under the same hint receive
the base name and base2 (numeric suffix starting at 2, no separator)
respectively. -/
theorem claim_C4_collision_safety (root root1 : Node) (c : Bool)
    (heventop : ∀ top rest, root.content = top :: rest →
      top.content.length % 2 = 0)
    (hevencomps : ∀ top rest, root.content = top :: rest →
      (ensureMapValueF top "components").2.kind = 4 →
      (ensureMapValueF top "components").2.content.length % 2 = 0)
    (hschemas : ∀ top rest, root.content = top :: rest →
      (ensureMapValueF (ensureMapValueF top "components").2 "schemas").2.kind = 4 ∧
      (ensureMapValueF (ensureMapValueF top "components").2
        "schemas").2.content.length % 2 = 0 ∧
      NoDistinctDup (ensureMapValueF (ensureMapValueF top "components").2
        "schemas").2.content)
    (h : RefactorInlineResponseSchemas root = .ok (root1, c)) :
    (∀ s1, schemasOfDoc root1 = some s1 → NoDistinctDup s1.content) ∧
    (∀ (st : RState) (s1 s2 : Node) (base : String),
      st.schemas.kind = 4 → st.schemas.content.length % 2 = 0 →
      getMapValue st.schemas base = none →
      base ∉ st.names → base ++ "2" ∉ st.names → base ≠ "" →
      s1.kind = 4 → isRefOnlySchema s1 = false →
      s2.kind = 4 → isRefOnlySchema s2 = false →
      schemaFingerprint s1 ≠ schemaFingerprint s2 →
      lookupFp st.byFp (schemaFingerprint s1) = none →
      lookupFp st.byFp (schemaFingerprint s2) = none →
      (componentizeSchemaCore s1 base st).2.2.1 = base ∧
      (componentizeSchemaCore s2 base
        (componentizeSchemaCore s1 base st).2.1).2.2.1 = base ++ "2") := by
  constructor
  · unfold RefactorInlineResponseSchemas refactorWith at h
    cases hcont : root.content with
    | nil => rw [hcont] at h; exact absurd h (by simp)
    | cons top restDoc =>
      rw [hcont] at h
      have heven1 : top.content.length % 2 = 0 := heventop top restDoc hcont
      have heven2 := hevencomps top restDoc hcont
      obtain ⟨hsk, hsev, hsnd⟩ := hschemas top restDoc hcont
      by_cases hk : root.kind = 1
      case neg => simp [hk] at h
      by_cases ht : top.kind = 4
      case neg => simp [hk, ht] at h
      simp only [hk, ht, ne_eq, not_true_eq_false, if_false, reduceCtorEq] at h
      cases hp : getMapValue (ensureMapValueF top "components").1 "paths" with
      | none => rw [hp] at h; exact absurd h (by simp)
      | some pathsNode =>
        rw [hp] at h
        by_cases hpk : pathsNode.kind = 4
        case neg => simp [hpk] at h
        simp only [hpk, ne_eq, not_true_eq_false, if_false, Except.ok.injEq,
          Prod.mk.injEq] at h
        obtain ⟨hroot1, hc⟩ := h
        subst hroot1
        set comps := (ensureMapValueF top "components").2 with hcompsdef
        set top1 := (ensureMapValueF top "components").1 with htop1def
        set comps1 := (ensureMapValueF comps "schemas").1 with hcomps1def
        set schemas0 := (ensureMapValueF comps "schemas").2 with hschemas0def
        set R := processPaths pathsNode.content (newSchemaRegistry schemas0) with hRdef
        set pathsNode1 := pathsNode.setContent R.1 with hpaths1def
        set comps2 := setMapValueFirst comps1 "schemas" R.2.1.schemas with hcomps2def
        set top2 := setMapValueFirst top1 "paths" pathsNode1 with htop2def
        set top3 := setMapValueFirst top2 "components" comps2 with htop3def
        have htop1k : top1.kind = 4 := ensureMapValueF_fst_kind top "components"
        have hcomps1k : comps1.kind = 4 := ensureMapValueF_fst_kind comps "schemas"
        have hf1 : getMapValue top1 "components" = some comps :=
          ensureMapValueF_lookup top "components" (fun _ => heven1)
        have hf2 : getMapValue comps1 "schemas" = some schemas0 :=
          ensureMapValueF_lookup comps "schemas" heven2
        have htop3k : top3.kind = 4 := by
          rw [htop3def, setMapValueFirst_kind, htop2def, setMapValueFirst_kind]
          exact htop1k
        have hg1 : getMapValue top3 "components" = some comps2 := by
          rw [htop3def]
          refine getMapValue_setMapValueFirst_self top2 "components" comps2 comps ?_
          rw [htop2def, getMapValue_setMapValueFirst_ne top1 "paths" "components"
            pathsNode1 (by decide)]
          exact hf1
        have hg2 : getMapValue comps2 "schemas" = some R.2.1.schemas := by
          rw [hcomps2def]
          exact getMapValue_setMapValueFirst_self comps1 "schemas" R.2.1.schemas
            schemas0 hf2
        have hinv0 : RegInv (newSchemaRegistry schemas0) :=
          newSchemaRegistry_inv schemas0 hsk hsev hsnd
        have hinvR : RegInv R.2.1 := by
          rw [hRdef]
          exact processPaths_inv pathsNode.content (newSchemaRegistry schemas0) hinv0
        intro s1 hs1
        have hsd : schemasOfDoc (Node.mk 1 root.tag root.value
            (top3 :: restDoc)) = some R.2.1.schemas := by
          unfold schemasOfDoc
          simp only [Node.content_mk]
          show ((getMapValue top3 "components").bind
            (fun m => getMapValue m "schemas")) = some R.2.1.schemas
          rw [hg1]
          exact hg2
        rw [hsd] at hs1
        injection hs1 with hs1e
        rw [← hs1e]
        exact hinvR.2.2.1
  · intro st s1 s2 base hk4 hev hg hn1 hn2 hbne hs1k hs1r hs2k hs2r hfp hf1 hf2
    exact componentize_twice_base2 st s1 s2 base hk4 hev hg hn1 hn2 hbne
      hs1k hs1r hs2k hs2r hfp hf1 hf2

/-- Claim C4 counterexample to the literal naming statement: in docC4pre a
component named ThingsGet200Response already exists (a third, distinct
shape), and the two structurally distinct inline response schemas at
/things and /Things both derive the colliding hint ThingsGet200Response.
After the run the FIRST of them is stored and referenced as
ThingsGet200Response2 and the second as ThingsGet200Response3: the first
colliding schema does not receive the base name, refuting the claim that
it always does. -/
theorem claim_C4_counterexample :
    deriveResponseSchemaNameHint "/things" "get" "" "200" =
      deriveResponseSchemaNameHint "/Things" "get" "" "200" ∧
    schemaFingerprint inlineObjA ≠ schemaFingerprint inlineObjB ∧
    (refactorResultDoc docC4pre).bind (fun d => responseSchemaAt d "/things") =
      some (makeRefOnlySchema inlineObjA "ThingsGet200Response2") ∧
    (refactorResultDoc docC4pre).bind (fun d => responseSchemaAt d "/Things") =
      some (makeRefOnlySchema inlineObjB "ThingsGet200Response3") ∧
    makeRefOnlySchema inlineObjA "ThingsGet200Response2" ≠
      makeRefOnlySchema inlineObjA "ThingsGet200Response" := by
  refine ⟨by decide, by decide, ?_, ?_, by decide⟩
  · set_option maxRecDepth 4000 in decide
  · set_option maxRecDepth 4000 in decide

theorem claim_C4_witness :
    ((∀ top rest, docPlainA.content = top :: rest →
       top.content.length % 2 = 0) ∧
     (∀ top rest, docPlainA.content = top :: rest →
       (ensureMapValueF top "components").2.kind = 4 →
       (ensureMapValueF top "components").2.content.length % 2 = 0) ∧
     (∀ top rest, docPlainA.content = top :: rest →
       (ensureMapValueF (ensureMapValueF top "components").2 "schemas").2.kind = 4 ∧
       (ensureMapValueF (ensureMapValueF top "components").2
         "schemas").2.content.length % 2 = 0 ∧
       NoDistinctDup (ensureMapValueF (ensureMapValueF top "components").2
         "schemas").2.content) ∧
     RefactorInlineResponseSchemas docPlainA = .ok (docPlainAOut, true)) ∧
    NoDistinctDup (Node.mk 4 "" "" [ystr "Thing200Response", inlineObjA]).content ∧
    ((componentizeSchemaCore inlineObjA "Base"
        (newSchemaRegistry emptySchemasNode)).2.2.1 = "Base" ∧
     (componentizeSchemaCore inlineObjB "Base"
        (componentizeSchemaCore inlineObjA "Base"
          (newSchemaRegistry emptySchemasNode)).2.1).2.2.1 = "Base" ++ "2") := by
  have h1 : ∀ top rest, docPlainA.content = top :: rest →
      top.content.length % 2 = 0 := by
    intro top rest h
    have hc : docPlainA.content = [docPlainATop] := rfl
    rw [hc] at h
    injection h with htop hrest
    subst htop
    decide
  have h2 : ∀ top rest, docPlainA.content = top :: rest →
      (ensureMapValueF top "components").2.kind = 4 →
      (ensureMapValueF top "components").2.content.length % 2 = 0 := by
    intro top rest h
    have hc : docPlainA.content = [docPlainATop] := rfl
    rw [hc] at h
    injection h with htop hrest
    subst htop
    intro hk4
    decide
  have h3 : ∀ top rest, docPlainA.content = top :: rest →
      (ensureMapValueF (ensureMapValueF top "components").2 "schemas").2.kind = 4 ∧
      (ensureMapValueF (ensureMapValueF top "components").2
        "schemas").2.content.length % 2 = 0 ∧
      NoDistinctDup (ensureMapValueF (ensureMapValueF top "components").2
        "schemas").2.content := by
    intro top rest h
    have hc : docPlainA.content = [docPlainATop] := rfl
    rw [hc] at h
    injection h with htop hrest
    subst htop
    refine ⟨by decide, by decide, by decide⟩
  have h4 : RefactorInlineResponseSchemas docPlainA = .ok (docPlainAOut, true) := rfl
  have hmain := claim_C4_collision_safety docPlainA docPlainAOut true h1 h2 h3 h4
  refine ⟨⟨h1, h2, h3, h4⟩, ?_, ?_⟩
  · exact hmain.1 (Node.mk 4 "" "" [ystr "Thing200Response", inlineObjA]) rfl
  · exact hmain.2 (newSchemaRegistry emptySchemasNode) inlineObjA inlineObjB "Base"
      (by decide) (by decide) (by decide) (by decide) (by decide) (by decide)
      (by decide) (by decide) (by decide) (by decide) (by decide) rfl rfl
